import Mathlib

/-!
# Verification of the step-wise Dijkstra solver

Shallow embedding of the incremental Dijkstra solver (`class Solver` in
`src/main.cc`, the consolidated variant with a distance/predecessor table).
The C++ `std::unordered_map` fields are modelled as association lists whose
list order stands for the map's iteration order, `std::list<VertexId>` as a
`List`, the neighbour iterator `m_neighbour` as an index into the current
vertex's neighbour vector, and a call to `std::unordered_map::at` that would
throw `std::out_of_range` as an `Option.none` result.  The `Vector2 m_pos`
field of `Vertex` is presentation-only (only the renderer reads it) and is
omitted.  Distances use unbounded `Int`: signed `int` overflow is undefined
behaviour in the source and no claim exercises it.
-/

namespace Pathfinding

/-- `using VertexId = int64_t;` -/
abbrev VertexId := Int

/-- `struct Edge` from src/main.cc. -/
structure Edge where
  m_other_id : VertexId
  m_weight : Int
deriving DecidableEq, Repr

/-- `struct Vertex` from src/main.cc (the presentation-only `m_pos` field is omitted). -/
structure Vertex where
  m_id : VertexId
  m_neighbours : List Edge
deriving DecidableEq, Repr

/-- The graph: `std::unordered_map<VertexId, Vertex>` as an association list in
iteration order. -/
abbrev Graph := List (VertexId × Vertex)

/-- `struct TableEntry` from src/main.cc. -/
structure TableEntry where
  m_dist : Int
  m_prev : VertexId
deriving DecidableEq, Repr

abbrev Table := List (VertexId × TableEntry)

/-- `enum class State` from src/main.cc. -/
inductive EngineState where
  | Idle
  | NextVertex
  | Visiting
  | Terminated
deriving DecidableEq, Repr

/-- `static constexpr int m_inf = 999;` (src/main.cc line 205). -/
def m_inf : Int := 999

/-- Map lookup, `std::unordered_map::find` / `at`: first entry with the key. -/
def findEntry {β : Type} : List (VertexId × β) → VertexId → Option β
  | [], _ => none
  | (k, v) :: rest, k' => if k = k' then some v else findEntry rest k'

/-- Map assignment `m[k] = v`: overwrite the entry if present, append otherwise. -/
def setEntry {β : Type} : List (VertexId × β) → VertexId → β → List (VertexId × β)
  | [], k, v => [(k, v)]
  | (k', v') :: rest, k, v =>
    if k' = k then (k, v) :: rest else (k', v') :: setEntry rest k v

/-- The key set of a map, in iteration order. -/
def keysOf {β : Type} (l : List (VertexId × β)) : List VertexId := l.map Prod.fst

/-- `class Solver` (src/main.cc lines 195-344): data and state fields. -/
structure Solver where
  m_vertices : Graph
  m_source : VertexId
  m_unvisited : List VertexId
  m_table : Table
  m_current : VertexId
  m_neighbour : Nat
  m_state : EngineState
deriving DecidableEq, Repr

namespace Solver

/-- `Solver::reset` (src/main.cc lines 246-253): sets the state to `Idle` and
then, for each vertex of the graph in iteration order, pushes its key onto
`m_unvisited` (without clearing it first) and assigns its table entry. -/
def reset (s : Solver) : Solver :=
  s.m_vertices.foldl
    (fun acc kv =>
      { acc with
        m_unvisited := acc.m_unvisited ++ [kv.1]
        m_table := setEntry acc.m_table kv.1
          ⟨if kv.1 = s.m_source then 0 else m_inf, -1⟩ })
    { s with m_state := .Idle }

/-- `Solver::Solver` (src/main.cc lines 221-226): stores the vertices and the
source, then calls `reset()`.  `m_current` and `m_neighbour` are left
uninitialized in the source and never read before being set; they are given
arbitrary defaults here. -/
def make (vertices : Graph) (source : VertexId) : Solver :=
  reset { m_vertices := vertices, m_source := source, m_unvisited := [],
          m_table := [], m_current := 0, m_neighbour := 0, m_state := .Idle }

/-- `Solver::is_done` (src/main.cc lines 242-244). -/
def is_done (s : Solver) : Bool :=
  s.m_state = .Terminated

/-- The fold inside `ranges::min_element` (src/main.cc lines 308-314): keep the
current best element, replacing it only when a later element's recorded
distance is strictly smaller; a failed `m_table.at` lookup is `none`. -/
def minGo (t : Table) : VertexId → List VertexId → Option VertexId
  | best, [] => some best
  | best, a :: rest =>
    match findEntry t a, findEntry t best with
    | some ea, some eb =>
      if ea.m_dist < eb.m_dist then minGo t a rest else minGo t best rest
    | _, _ => none

/-- `Solver::next_unvisited` (src/main.cc lines 308-314): the first element of
`m_unvisited` with minimal recorded distance.  `min_element` on an empty range
would dereference the end iterator, modelled as `none`. -/
def next_unvisited (s : Solver) : Option VertexId :=
  match s.m_unvisited with
  | [] => none
  | x :: xs => minGo s.m_table x xs

/-- `Solver::visit_neighbour` (src/main.cc lines 316-332).  Looks up the
current vertex and its table entry, dereferences the neighbour cursor, skips
neighbours that are no longer unvisited and otherwise relaxes: if
`dist = current_dist + weight` is strictly below the neighbour's recorded
distance, overwrite its entry with `{dist, current.m_id}`. -/
def visit_neighbour (s : Solver) : Option Solver := do
  let current ← findEntry s.m_vertices s.m_current
  let centry ← findEntry s.m_table current.m_id
  let v ← current.m_neighbours[s.m_neighbour]?
  let other := v.m_other_id
  if other ∈ s.m_unvisited then
    let dist := centry.m_dist + v.m_weight
    let oentry ← findEntry s.m_table other
    if dist < oentry.m_dist then
      pure { s with m_table := setEntry s.m_table other ⟨dist, current.m_id⟩ }
    else
      pure s
  else
    pure s

/-- `Solver::next` (src/main.cc lines 255-305): one tick of the state machine.
`std::list::remove` erases every element equal to its argument. -/
def next (s : Solver) : Option Solver :=
  match s.m_state with
  | .Terminated => some s
  | .Idle =>
    if s.m_unvisited.isEmpty then
      some { s with m_state := .Terminated }
    else do
      let u ← next_unvisited s
      some { s with m_current := u, m_state := .NextVertex }
  | .NextVertex => do
    let vtx ← findEntry s.m_vertices s.m_current
    if vtx.m_neighbours.isEmpty then
      some { s with m_neighbour := 0,
                    m_unvisited := s.m_unvisited.filter (fun v => v ≠ s.m_current),
                    m_state := .Idle }
    else
      some { s with m_neighbour := 0, m_state := .Visiting }
  | .Visiting => do
    let vtx ← findEntry s.m_vertices s.m_current
    let s1 ← visit_neighbour s
    let s2 := { s1 with m_neighbour := s1.m_neighbour + 1 }
    if s2.m_neighbour = vtx.m_neighbours.length then
      some { s2 with m_unvisited := s2.m_unvisited.filter (fun v => v ≠ s.m_current),
                     m_state := .Idle }
    else
      some s2

/-- The result of `Solver::get_optimal_path`.  `lookupFail id` models the
`std::out_of_range` exception thrown by `m_table.at(id)` (the spec's NotFound
error kind).  The `unreachable` alternative is modelled from the spec: §7
names a distinct `Unreachable` error kind for path reconstruction on a vertex
with no predecessor chain to the source; the embedded code never produces it. -/
inductive PathResult where
  | ok (path : List VertexId)
  | lookupFail (id : VertexId)
  | unreachable
deriving DecidableEq, Repr

/-- The `while (prev != m_source)` loop of `Solver::get_optimal_path`
(src/main.cc lines 228-240), with explicit fuel: `none` means the loop did not
finish within `fuel` iterations. -/
def get_optimal_path_go (s : Solver) : Nat → VertexId → List VertexId → Option PathResult
  | 0, _, _ => none
  | fuel + 1, prev, path =>
    if prev = s.m_source then some (.ok path.reverse)
    else
      match findEntry s.m_table prev with
      | none => some (.lookupFail prev)
      | some e => get_optimal_path_go s fuel e.m_prev (path ++ [e.m_prev])

/-- `Solver::get_optimal_path` (src/main.cc lines 228-240): follow predecessor
links from `dest` until the source is reached, collecting each predecessor,
then reverse the collected list. -/
def get_optimal_path (s : Solver) (dest : VertexId) (fuel : Nat) : Option PathResult :=
  get_optimal_path_go s fuel dest []

end Solver

/-- Iterating `Solver::next` (the external `advance()` ticks). -/
def run : Nat → Solver → Option Solver
  | 0, s => some s
  | n + 1, s => (s.next).bind (run n)

/-- Recorded distance of a vertex, defaulting to the sentinel for a missing
entry (the default never matters where this is used: the table always carries
every graph key there). -/
def distOf (t : Table) (v : VertexId) : Int :=
  match findEntry t v with
  | some e => e.m_dist
  | none => m_inf

/-- The table produced by the `reset()` fold when started from table `t`:
every graph key is assigned distance 0 (source) or the sentinel, predecessor
-1. -/
def initAssign (src : VertexId) (t : Table) (g : Graph) : Table :=
  g.foldl (fun acc kv => setEntry acc kv.1 ⟨if kv.1 = src then 0 else m_inf, -1⟩) t

/-- A walk in the graph from `u` to `v` of total edge weight `c`. -/
inductive CostPath (g : Graph) : VertexId → VertexId → Int → Prop
  | nil (v : VertexId) : CostPath g v v 0
  | cons {u v c : Int} {vtx : Vertex} {e : Edge} :
      (u, vtx) ∈ g → e ∈ vtx.m_neighbours → CostPath g e.m_other_id v c →
      CostPath g u v (e.m_weight + c)

/-- `v` is reachable from `u` in `g`. -/
def ReachableFrom (g : Graph) (u v : VertexId) : Prop :=
  ∃ c, CostPath g u v c

/-- `d` is the true shortest-path weight from `u` to `v`. -/
def ShortestDist (g : Graph) (u v : VertexId) (d : Int) : Prop :=
  CostPath g u v d ∧ ∀ c, CostPath g u v c → d ≤ c

/-- A walk from `u` to `v` all of whose vertices except possibly the final `v`
satisfy `S` (the walk may end anywhere, but every vertex an edge is taken from
is in `S`). -/
inductive ViaPath (g : Graph) (S : VertexId → Prop) : VertexId → VertexId → Int → Prop
  | nil (v : VertexId) : ViaPath g S v v 0
  | cons {u v c : Int} {vtx : Vertex} {e : Edge} :
      (u, vtx) ∈ g → e ∈ vtx.m_neighbours → S u → ViaPath g S e.m_other_id v c →
      ViaPath g S u v (e.m_weight + c)

/-- The graph is well formed: unique keys, each vertex record carries its own
key as `m_id`, and no edge dangles. -/
@[reducible] def WellFormed (g : Graph) : Prop :=
  (keysOf g).Nodup ∧ (∀ p ∈ g, p.2.m_id = p.1) ∧
    (∀ p ∈ g, ∀ e ∈ p.2.m_neighbours, e.m_other_id ∈ keysOf g)

/-- All edge weights of the graph are non-negative. -/
@[reducible] def NonNegWeights (g : Graph) : Prop :=
  ∀ p ∈ g, ∀ e ∈ p.2.m_neighbours, 0 ≤ e.m_weight

/-- The vertex's table entry is final and correct: present, equal to the true
shortest-path weight when the vertex is reachable and to the sentinel when it
is not. -/
def DoneV (g : Graph) (src : VertexId) (t : Table) (v : VertexId) : Prop :=
  ∃ e, findEntry t v = some e ∧
    (ReachableFrom g src v → ShortestDist g src v e.m_dist) ∧
    (¬ ReachableFrom g src v → e.m_dist = m_inf)

/-- The set of finalized vertices of a solver state: graph keys that have left
the unvisited list. -/
def VisitedPred (s : Solver) : VertexId → Prop :=
  fun v => v ∈ keysOf s.m_vertices ∧ v ∉ s.m_unvisited

/-- The effect of one `visit_neighbour` call on the table, given the current
vertex `uid`, the unvisited list `unvis` and the edge `e` under the cursor
(all lookups assumed to succeed; the fallback branches are unreachable under
the invariants below). -/
def relaxOne (uid : VertexId) (unvis : List VertexId) (t : Table) (e : Edge) : Table :=
  if e.m_other_id ∈ unvis then
    match findEntry t uid, findEntry t e.m_other_id with
    | some cu, some co =>
      if cu.m_dist + e.m_weight < co.m_dist then
        setEntry t e.m_other_id ⟨cu.m_dist + e.m_weight, uid⟩
      else t
    | _, _ => t
  else t

/-- The table after the whole Visiting phase of vertex `uid` over its edge
list. -/
def relaxList (uid : VertexId) (unvis : List VertexId) (t : Table) (es : List Edge) : Table :=
  es.foldl (relaxOne uid unvis) t

/-- The Dijkstra loop invariant, holding at every Idle state of a run. -/
structure Inv (g : Graph) (src : VertexId) (s : Solver) : Prop where
  hg : s.m_vertices = g
  hsrc : s.m_source = src
  hstate : s.m_state = .Idle
  hnodup : s.m_unvisited.Nodup
  hsub : ∀ v ∈ s.m_unvisited, v ∈ keysOf g
  htk : ∀ v, (findEntry s.m_table v).isSome ↔ v ∈ keysOf g
  hA : ∀ v, distOf s.m_table v < m_inf → CostPath g src v (distOf s.m_table v)
  hB : ∀ v ∈ keysOf g, v ∉ s.m_unvisited → DoneV g src s.m_table v
  hsrc0 : distOf s.m_table src = 0
  hD : ∀ m ∈ keysOf g, m ∉ s.m_unvisited → ∀ x ∈ s.m_unvisited,
    distOf s.m_table m ≤ distOf s.m_table x
  hE : ∀ m vtx, (m, vtx) ∈ g → m ∉ s.m_unvisited → ∀ e ∈ vtx.m_neighbours,
    distOf s.m_table e.m_other_id ≤ distOf s.m_table m + e.m_weight
  hF : ∀ v, 0 ≤ distOf s.m_table v ∧ distOf s.m_table v ≤ m_inf
  hsk : src ∈ keysOf g
  hS : src ∉ s.m_unvisited ∨ s.m_table = initAssign src [] g

/-- Invariant of the table during a Visiting phase of vertex `u` relative to
the phase's initial table `t0`: keys unchanged, entries outside the unvisited
list unchanged, `u`'s own entry unchanged, distances only decrease, stay
non-negative, drop below `u`'s initial distance for no vertex, and every
recorded distance below the sentinel is the weight of an actual walk from the
source. -/
structure Mid (g : Graph) (src u : VertexId) (unvis : List VertexId)
    (t0 t : Table) : Prop where
  keys_iff : ∀ x, (findEntry t x).isSome ↔ (findEntry t0 x).isSome
  vis_eq : ∀ x, x ∉ unvis → findEntry t x = findEntry t0 x
  u_eq : findEntry t u = findEntry t0 u
  mono : ∀ x, distOf t x ≤ distOf t0 x
  pos : ∀ x, 0 ≤ distOf t x
  low : ∀ x, distOf t x = distOf t0 x ∨ distOf t0 u ≤ distOf t x
  ach : ∀ x, distOf t x < m_inf → CostPath g src x (distOf t x)

/-- Successful predecessor chain: `Follows s v l` says that the
`get_optimal_path` loop started at `v` reaches the source, collecting exactly
the list `l` (in collection order). -/
inductive Follows (s : Solver) : VertexId → List VertexId → Prop
  | base : Follows s s.m_source []
  | step {v : VertexId} {e : TableEntry} {l : List VertexId} :
      v ≠ s.m_source → findEntry s.m_table v = some e → Follows s e.m_prev l →
      Follows s v (e.m_prev :: l)

/-- Failing predecessor chain: following predecessors from `v` performs `n`
successful lookups and then hits vertex `bad` whose table lookup fails,
without ever reaching the source. -/
inductive ChainToNone (s : Solver) : VertexId → VertexId → Nat → Prop
  | base {v : VertexId} : v ≠ s.m_source → findEntry s.m_table v = none →
      ChainToNone s v v 0
  | step {v bad : VertexId} {e : TableEntry} {n : Nat} :
      v ≠ s.m_source → findEntry s.m_table v = some e →
      ChainToNone s e.m_prev bad n → ChainToNone s v bad (n + 1)

/-- The solver states reachable through the public interface: construction,
`advance()` ticks and `reset()` calls. -/
inductive ReachSt (g : Graph) (src : VertexId) : Solver → Prop
  | init : ReachSt g src (Solver.make g src)
  | tick {s s' : Solver} : ReachSt g src s → s.next = some s' → ReachSt g src s'
  | reset {s : Solver} : ReachSt g src s → ReachSt g src s.reset

/-- One isolated vertex. -/
def g1 : Graph := [(1, ⟨1, []⟩)]

/-- Two isolated vertices: vertex 2 is unreachable from 1. -/
def g2 : Graph := [(1, ⟨1, []⟩), (2, ⟨2, []⟩)]

/-- An edge 1 → 2 of weight 5. -/
def g3 : Graph := [(1, ⟨1, [⟨2, 5⟩]⟩), (2, ⟨2, []⟩)]

/-- An edge 1 → 2 whose weight 1000 exceeds the sentinel 999. -/
def gBig : Graph := [(1, ⟨1, [⟨2, 1000⟩]⟩), (2, ⟨2, []⟩)]

/-- An edge 1 → 2 of negative weight. -/
def gNeg : Graph := [(1, ⟨1, [⟨2, -5⟩]⟩), (2, ⟨2, []⟩)]

/-- A dangling edge: vertex 7 is not a key. -/
def gDangling : Graph := [(1, ⟨1, [⟨7, 3⟩]⟩)]

/-- The terminated solver obtained from `g3` (source 1) after 6 ticks. -/
def s3T : Solver :=
  { m_vertices := g3, m_source := 1, m_unvisited := [],
    m_table := [(1, ⟨0, -1⟩), (2, ⟨5, 1⟩)], m_current := 2, m_neighbour := 0,
    m_state := .Terminated }

/-- The terminated solver obtained from `gBig` (source 1) after 6 ticks. -/
def sBigT : Solver :=
  { m_vertices := gBig, m_source := 1, m_unvisited := [],
    m_table := [(1, ⟨0, -1⟩), (2, ⟨999, -1⟩)], m_current := 2, m_neighbour := 0,
    m_state := .Terminated }

/-- The terminated solver obtained from `g2` (source 1) after 5 ticks. -/
def s2T : Solver :=
  { m_vertices := g2, m_source := 1, m_unvisited := [],
    m_table := [(1, ⟨0, -1⟩), (2, ⟨999, -1⟩)], m_current := 2, m_neighbour := 0,
    m_state := .Terminated }

/-- The solver obtained from `g1` (source 1) after 2 ticks: the last vertex has
just been removed but the state is still `Idle`, not `Terminated`. -/
def s1I : Solver :=
  { m_vertices := g1, m_source := 1, m_unvisited := [],
    m_table := [(1, ⟨0, -1⟩)], m_current := 1, m_neighbour := 0,
    m_state := .Idle }

/-- The terminated solver obtained from `g1` (source 1) after 3 ticks. -/
def s1T : Solver :=
  { m_vertices := g1, m_source := 1, m_unvisited := [],
    m_table := [(1, ⟨0, -1⟩)], m_current := 1, m_neighbour := 0,
    m_state := .Terminated }

/-- A solver in the `NextVertex` state whose current vertex has no outgoing
edges. -/
def sNV : Solver :=
  { m_vertices := g1, m_source := 1, m_unvisited := [1],
    m_table := [(1, ⟨0, -1⟩)], m_current := 1, m_neighbour := 0,
    m_state := .NextVertex }

/-- A solver in the `Visiting` state about to relax the edge 1 → 2. -/
def sVis : Solver :=
  { m_vertices := g3, m_source := 1, m_unvisited := [1, 2],
    m_table := [(1, ⟨0, -1⟩), (2, ⟨999, -1⟩)], m_current := 1, m_neighbour := 0,
    m_state := .Visiting }

/-- An Idle solver whose unvisited vertices 2, 3, 1 all share the recorded
distance 7: used to exhibit the deterministic tie-break. -/
def sSel : Solver :=
  { m_vertices := [(1, ⟨1, []⟩), (2, ⟨2, []⟩), (3, ⟨3, []⟩)], m_source := 1,
    m_unvisited := [2, 3, 1],
    m_table := [(1, ⟨7, -1⟩), (2, ⟨7, -1⟩), (3, ⟨7, -1⟩)], m_current := 0,
    m_neighbour := 0, m_state := .Idle }

section Lemmas

theorem findEntry_setEntry {β : Type} (t : List (VertexId × β)) (k x : VertexId) (v : β) :
    findEntry (setEntry t k v) x = if k = x then some v else findEntry t x := by
  induction t with
  | nil => by_cases hx : k = x <;> simp [setEntry, findEntry, hx]
  | cons p rest ih =>
    obtain ⟨k', v'⟩ := p
    by_cases h : k' = k <;> by_cases hx : k = x <;>
      simp_all [setEntry, findEntry]

theorem keysOf_cons {β : Type} (p : VertexId × β) (l : List (VertexId × β)) :
    keysOf (p :: l) = p.1 :: keysOf l := rfl

theorem mem_keysOf {β : Type} {l : List (VertexId × β)} {k : VertexId} {v : β}
    (h : (k, v) ∈ l) : k ∈ keysOf l :=
  List.mem_map_of_mem Prod.fst h

theorem findEntry_isSome_iff {β : Type} (l : List (VertexId × β)) (k : VertexId) :
    (findEntry l k).isSome ↔ k ∈ keysOf l := by
  induction l with
  | nil => simp [findEntry, keysOf]
  | cons p rest ih =>
    obtain ⟨k', v'⟩ := p
    rw [keysOf_cons]
    by_cases h : k' = k
    · subst h
      simp [findEntry]
    · have h2 : ¬ k = k' := fun hh => h hh.symm
      simp [findEntry, h, h2, ih]

theorem findEntry_mem {β : Type} {l : List (VertexId × β)} {k : VertexId} {v : β}
    (h : findEntry l k = some v) : (k, v) ∈ l := by
  induction l with
  | nil => simp [findEntry] at h
  | cons p rest ih =>
    obtain ⟨k', v'⟩ := p
    by_cases hk : k' = k
    · subst hk
      simp [findEntry] at h
      simp [h]
    · simp [findEntry, hk] at h
      simp [ih h]

theorem findEntry_eq_of_mem {β : Type} {l : List (VertexId × β)} {k : VertexId} {v : β}
    (hnd : (keysOf l).Nodup) (h : (k, v) ∈ l) : findEntry l k = some v := by
  induction l with
  | nil => simp at h
  | cons p rest ih =>
    obtain ⟨k', v'⟩ := p
    rw [keysOf_cons, List.nodup_cons] at hnd
    rcases List.mem_cons.mp h with h1 | h1
    · rw [Prod.mk.injEq] at h1
      obtain ⟨h2, h3⟩ := h1
      subst h2
      subst h3
      simp [findEntry]
    · have hk : ¬ k' = k := by
        rintro rfl
        exact hnd.1 (mem_keysOf h1)
      simp only [findEntry, if_neg hk]
      exact ih hnd.2 h1

theorem findEntry_unique {β : Type} {l : List (VertexId × β)} {k : VertexId} {v w : β}
    (hnd : (keysOf l).Nodup) (hv : (k, v) ∈ l) (hw : (k, w) ∈ l) : v = w := by
  have h1 := findEntry_eq_of_mem hnd hv
  have h2 := findEntry_eq_of_mem hnd hw
  rw [h1] at h2
  exact Option.some.inj h2

theorem mem_of_findEntry_isSome {β : Type} {l : List (VertexId × β)} {k : VertexId}
    (h : k ∈ keysOf l) : ∃ v, findEntry l k = some v := by
  have := (findEntry_isSome_iff l k).mpr h
  exact Option.isSome_iff_exists.mp this

/-- The `reset()` fold decomposed into its effect on each field. -/
theorem reset_eq (s : Solver) :
    s.reset = { s with m_state := .Idle,
                       m_unvisited := s.m_unvisited ++ keysOf s.m_vertices,
                       m_table := initAssign s.m_source s.m_table s.m_vertices } := by
  have go : ∀ (g : Graph) (acc : Solver),
      g.foldl (fun acc kv =>
        { acc with
          m_unvisited := acc.m_unvisited ++ [kv.1]
          m_table := setEntry acc.m_table kv.1
            ⟨if kv.1 = s.m_source then 0 else m_inf, -1⟩ }) acc
      = { acc with m_unvisited := acc.m_unvisited ++ keysOf g,
                   m_table := initAssign s.m_source acc.m_table g } := by
    intro g
    induction g with
    | nil => intro acc; simp [keysOf, initAssign]
    | cons kv rest ih =>
      intro acc
      simp only [List.foldl_cons, ih, keysOf, List.map_cons, initAssign, List.foldl_cons]
      simp [List.append_assoc]
  exact go s.m_vertices { s with m_state := .Idle }

theorem make_eq (g : Graph) (src : VertexId) :
    Solver.make g src =
      { m_vertices := g, m_source := src, m_unvisited := keysOf g,
        m_table := initAssign src [] g, m_current := 0, m_neighbour := 0,
        m_state := .Idle } := by
  rw [Solver.make, reset_eq]
  rfl

theorem findEntry_initAssign (g : Graph) (src : VertexId) (t : Table) (x : VertexId) :
    findEntry (initAssign src t g) x =
      if x ∈ keysOf g then some ⟨if x = src then 0 else m_inf, -1⟩
      else findEntry t x := by
  induction g generalizing t with
  | nil => simp [initAssign, keysOf]
  | cons kv rest ih =>
    simp only [initAssign, List.foldl_cons] at *
    rw [ih, keysOf_cons]
    by_cases hr : x ∈ keysOf rest
    · simp [hr]
    · by_cases hk : kv.1 = x
      · subst hk
        simp [hr, findEntry_setEntry]
      · have hx : ¬ x = kv.1 := fun h => hk h.symm
        simp [hr, hk, hx, findEntry_setEntry]

end Lemmas

section SmallGraphFacts

theorem costPath_gBig : CostPath gBig 1 2 1000 := by
  have h : CostPath gBig 1 2 (1000 + 0) :=
    @CostPath.cons gBig 1 2 0 ⟨1, [⟨2, 1000⟩]⟩ ⟨2, 1000⟩
      (by simp [gBig]) (by simp) (CostPath.nil 2)
  simpa using h

theorem costPath_gBig_from2 : ∀ v c, CostPath gBig 2 v c → v = 2 ∧ c = 0 := by
  intro v c h
  cases h with
  | nil => exact ⟨rfl, rfl⟩
  | cons hmem he htail =>
    simp [gBig] at hmem
    subst hmem
    simp at he

theorem costPath_gBig_lower : ∀ c, CostPath gBig 1 2 c → 1000 ≤ c := by
  intro c h
  cases h with
  | cons hmem he htail =>
    simp [gBig] at hmem
    subst hmem
    simp at he
    subst he
    obtain ⟨-, h0⟩ := costPath_gBig_from2 _ _ htail
    simp [h0]

end SmallGraphFacts

/-- Claim C1, counterexample: on the graph with the single edge 1 → 2 of
weight 1000 and non-negative weights, the solver runs to `Terminated` but
records distance 999 (the sentinel) for vertex 2, although vertex 2 is
reachable with true shortest-path weight 1000; the sentinel is not strictly
greater than this achievable distance, and the recorded distance of a
reachable vertex differs from the true shortest-path weight. -/
theorem C1_counterexample :
    run 6 (Solver.make gBig 1) = some sBigT ∧
    sBigT.m_state = .Terminated ∧
    ReachableFrom gBig 1 2 ∧
    ShortestDist gBig 1 2 1000 ∧
    findEntry sBigT.m_table 2 = some ⟨m_inf, -1⟩ ∧
    ¬ (1000 : Int) < m_inf :=
  ⟨by decide, rfl, ⟨1000, costPath_gBig⟩, ⟨costPath_gBig, costPath_gBig_lower⟩,
    by decide, by decide⟩

/-- Claim C2, counterexample: on the graph with the single edge 1 → 2 of
weight 5 (source 1), after running to `Terminated`, `get_optimal_path 2`
returns `[1]`: the sequence contains the source and does not contain the
destination, contradicting the claimed "excludes the source and includes the
destination". -/
theorem C2_counterexample :
    run 6 (Solver.make g3 1) = some s3T ∧
    s3T.get_optimal_path 2 2 = some (.ok [1]) ∧
    s3T.m_source ∈ [(1 : VertexId)] ∧ (2 : VertexId) ∉ [(1 : VertexId)] := by
  decide

/-- Claim C3, counterexample: on the graph with two isolated vertices
(source 1), after running to `Terminated`, reconstruction for the unreachable
vertex 2 terminates with a failed table lookup of the none marker -1 (the
`std::out_of_range` of `m_table.at`, the spec's NotFound kind) — not with a
designated Unreachable error. -/
theorem C3_counterexample :
    run 5 (Solver.make g2 1) = some s2T ∧
    s2T.get_optimal_path 2 3 = some (.lookupFail (-1)) ∧
    s2T.get_optimal_path 2 3 ≠ some .unreachable := by
  decide

/-- Claim C5, counterexample: on the single-vertex graph, after 2 ticks the
unvisited set is empty while the state is still `Idle`, so "unvisited empty
iff Terminated" fails in this reachable state. -/
theorem C5_counterexample :
    run 2 (Solver.make g1 1) = some s1I ∧
    s1I.m_unvisited = [] ∧ s1I.m_state ≠ .Terminated := by
  decide

/-- Claim C6: the constructor performs no validation.  On a graph with a
negative edge weight, and on a graph with a dangling edge, `Solver::Solver`
accepts the input and produces an initialized Idle solver instead of
rejecting with `InvalidGraph` (no error path exists in the code). -/
theorem C6_no_validation :
    Solver.make gNeg 1 =
      { m_vertices := gNeg, m_source := 1, m_unvisited := [1, 2],
        m_table := [(1, ⟨0, -1⟩), (2, ⟨m_inf, -1⟩)], m_current := 0,
        m_neighbour := 0, m_state := .Idle } ∧
    Solver.make gDangling 1 =
      { m_vertices := gDangling, m_source := 1, m_unvisited := [1],
        m_table := [(1, ⟨0, -1⟩)], m_current := 0,
        m_neighbour := 0, m_state := .Idle } := by
  decide

/-- Claim C7: `reset()` does not clear the unvisited list before pushing all
graph keys, so calling `reset()` on a freshly constructed single-vertex solver
leaves the unvisited list `[1, 1]` — vertex 1 twice — instead of restoring the
freshly-constructed configuration `[1]`. -/
theorem C7_reset_duplicates :
    (Solver.make g1 1).m_unvisited = [1] ∧
    ((Solver.make g1 1).reset).m_unvisited = [1, 1] := by
  decide

section PathReconstruction

theorem follows_nil {s : Solver} {v : VertexId} (h : Follows s v []) :
    v = s.m_source := by
  cases h with
  | base => rfl

theorem follows_last {s : Solver} :
    ∀ {v : VertexId} {l : List VertexId}, Follows s v l → l ≠ [] →
      l.getLast? = some s.m_source := by
  intro v l h
  induction h with
  | base => intro hne; exact absurd rfl hne
  | @step v' e l' hne hfe htail ih =>
    intro _
    cases l' with
    | nil =>
      have := follows_nil htail
      simp [this]
    | cons a l'' =>
      rw [List.getLast?_cons_cons]
      exact ih (by simp)

theorem get_path_go_ok (s : Solver) :
    ∀ {v : VertexId} {l : List VertexId}, Follows s v l →
      ∀ (acc : List VertexId) (fuel : Nat), l.length < fuel →
        Solver.get_optimal_path_go s fuel v acc = some (.ok (acc ++ l).reverse) := by
  intro v l h
  induction h with
  | base =>
    intro acc fuel hf
    cases fuel with
    | zero => simp at hf
    | succ n => simp [Solver.get_optimal_path_go]
  | @step v' e l' hne hfe htail ih =>
    intro acc fuel hf
    cases fuel with
    | zero => simp at hf
    | succ n =>
      simp only [Solver.get_optimal_path_go, if_neg hne, hfe]
      rw [ih (acc ++ [e.m_prev]) n (by simpa using hf)]
      simp

theorem get_path_go_fails (s : Solver) :
    ∀ {v bad : VertexId} {n : Nat}, ChainToNone s v bad n →
      ∀ (acc : List VertexId) (fuel : Nat), n < fuel →
        Solver.get_optimal_path_go s fuel v acc = some (.lookupFail bad) := by
  intro v bad n h
  induction h with
  | @base v' hne hnone =>
    intro acc fuel hf
    cases fuel with
    | zero => simp at hf
    | succ m => simp [Solver.get_optimal_path_go, if_neg hne, hnone]
  | @step v' bad' e m hne hfe htail ih =>
    intro acc fuel hf
    cases fuel with
    | zero => simp at hf
    | succ k =>
      simp only [Solver.get_optimal_path_go, if_neg hne, hfe]
      exact ih (acc ++ [e.m_prev]) k (by omega)

end PathReconstruction

section StepShape

theorem minGo_mem {t : Table} :
    ∀ (rest : List VertexId) (best u : VertexId),
      Solver.minGo t best rest = some u → u = best ∨ u ∈ rest := by
  intro rest
  induction rest with
  | nil =>
    intro best u h
    simp [Solver.minGo] at h
    exact Or.inl h.symm
  | cons a rest' ih =>
    intro best u h
    rw [Solver.minGo] at h
    cases ha : findEntry t a with
    | none => rw [ha] at h; simp at h
    | some ea =>
      cases hb : findEntry t best with
      | none => rw [ha, hb] at h; simp at h
      | some eb =>
        rw [ha, hb] at h
        simp only at h
        by_cases hlt : ea.m_dist < eb.m_dist
        · rw [if_pos hlt] at h
          rcases ih a u h with h1 | h1
          · exact Or.inr (by simp [h1])
          · exact Or.inr (by simp [h1])
        · rw [if_neg hlt] at h
          rcases ih best u h with h1 | h1
          · exact Or.inl h1
          · exact Or.inr (by simp [h1])

theorem next_unvisited_mem {s : Solver} {u : VertexId}
    (h : s.next_unvisited = some u) : u ∈ s.m_unvisited := by
  unfold Solver.next_unvisited at h
  cases hl : s.m_unvisited with
  | nil => rw [hl] at h; simp at h
  | cons x xs =>
    rw [hl] at h
    rcases minGo_mem xs x u h with h1 | h1
    · simp [h1]
    · simp [h1]

theorem visit_shape {s s1 : Solver} (h : s.visit_neighbour = some s1) :
    s1 = s ∨ ∃ k te, s1 = { s with m_table := setEntry s.m_table k te } := by
  unfold Solver.visit_neighbour at h
  cases hv : findEntry s.m_vertices s.m_current with
  | none => rw [hv] at h; simp at h
  | some vtx =>
    rw [hv] at h
    simp only [Option.bind_eq_bind, Option.some_bind'] at h
    cases hc : findEntry s.m_table vtx.m_id with
    | none => rw [hc] at h; simp at h
    | some ce =>
      rw [hc] at h
      simp only [Option.bind_eq_bind, Option.some_bind'] at h
      cases he : vtx.m_neighbours[s.m_neighbour]? with
      | none => rw [he] at h; simp at h
      | some e =>
        rw [he] at h
        simp only [Option.bind_eq_bind, Option.some_bind'] at h
        by_cases hmem : e.m_other_id ∈ s.m_unvisited
        · rw [if_pos hmem] at h
          cases ho : findEntry s.m_table e.m_other_id with
          | none => rw [ho] at h; simp at h
          | some oe =>
            rw [ho] at h
            simp only [Option.bind_eq_bind, Option.some_bind'] at h
            by_cases hlt : ce.m_dist + e.m_weight < oe.m_dist
            · rw [if_pos hlt] at h
              simp only [Option.pure_def, Option.some.injEq] at h
              exact Or.inr ⟨_, _, h.symm⟩
            · rw [if_neg hlt] at h
              simp only [Option.pure_def, Option.some.injEq] at h
              exact Or.inl h.symm
        · rw [if_neg hmem] at h
          simp only [Option.pure_def, Option.some.injEq] at h
          exact Or.inl h.symm

theorem visit_keeps {s s1 : Solver} (h : s.visit_neighbour = some s1) :
    s1.m_vertices = s.m_vertices ∧ s1.m_source = s.m_source ∧
    s1.m_unvisited = s.m_unvisited ∧ s1.m_current = s.m_current ∧
    s1.m_neighbour = s.m_neighbour ∧ s1.m_state = s.m_state := by
  rcases visit_shape h with h1 | ⟨k, te, h1⟩ <;> subst h1 <;>
    exact ⟨rfl, rfl, rfl, rfl, rfl, rfl⟩

theorem next_pres_term {s s' : Solver}
    (h : s.next = some s')
    (h1 : s.m_state = .Terminated → s.m_unvisited = [])
    (h2 : s.m_state = .NextVertex ∨ s.m_state = .Visiting → s.m_current ∈ s.m_unvisited) :
    (s'.m_state = .Terminated → s'.m_unvisited = []) ∧
    (s'.m_state = .NextVertex ∨ s'.m_state = .Visiting → s'.m_current ∈ s'.m_unvisited) := by
  cases hst : s.m_state with
  | Terminated =>
    rw [Solver.next, hst] at h
    obtain rfl := Option.some.inj h
    rw [hst]
    exact ⟨fun _ => h1 hst, fun hx => by cases hx <;> simp_all⟩
  | Idle =>
    rw [Solver.next, hst] at h
    by_cases hemp : s.m_unvisited.isEmpty
    · rw [if_pos hemp] at h
      obtain rfl := Option.some.inj h
      refine ⟨fun _ => ?_, fun hx => by cases hx <;> simp_all⟩
      simpa [List.isEmpty_iff] using hemp
    · rw [if_neg hemp] at h
      cases hu : s.next_unvisited with
      | none => rw [hu] at h; simp at h
      | some u =>
        rw [hu] at h
        simp only [Option.bind_eq_bind, Option.some_bind', Option.some.injEq] at h
        subst h
        exact ⟨fun hx => by simp_all, fun _ => next_unvisited_mem hu⟩
  | NextVertex =>
    rw [Solver.next, hst] at h
    cases hv : findEntry s.m_vertices s.m_current with
    | none => rw [hv] at h; simp at h
    | some vtx =>
      rw [hv] at h
      simp only [Option.bind_eq_bind, Option.some_bind'] at h
      by_cases hemp : vtx.m_neighbours.isEmpty
      · rw [if_pos hemp] at h
        obtain rfl := Option.some.inj h
        exact ⟨fun hx => by simp_all, fun hx => by cases hx <;> simp_all⟩
      · rw [if_neg hemp] at h
        obtain rfl := Option.some.inj h
        exact ⟨fun hx => by simp_all, fun _ => h2 (Or.inl hst)⟩
  | Visiting =>
    rw [Solver.next, hst] at h
    cases hv : findEntry s.m_vertices s.m_current with
    | none => rw [hv] at h; simp at h
    | some vtx =>
      rw [hv] at h
      cases hvis : s.visit_neighbour with
      | none => rw [hvis] at h; simp at h
      | some s1 =>
        rw [hvis] at h
        simp only [Option.bind_eq_bind, Option.some_bind'] at h
        obtain ⟨hkv, hks, hku, hkc, hkn, hkst⟩ := visit_keeps hvis
        by_cases hend : s1.m_neighbour + 1 = vtx.m_neighbours.length
        · rw [if_pos hend] at h
          obtain rfl := Option.some.inj h
          exact ⟨fun hx => by simp_all, fun hx => by cases hx <;> simp_all⟩
        · rw [if_neg hend] at h
          obtain rfl := Option.some.inj h
          refine ⟨fun hx => by simp_all, fun _ => ?_⟩
          simp only [hku, hkc]
          exact h2 (Or.inr hst)

theorem run_pres_term :
    ∀ (n : Nat) (s s' : Solver), run n s = some s' →
      (s.m_state = .Terminated → s.m_unvisited = []) →
      (s.m_state = .NextVertex ∨ s.m_state = .Visiting → s.m_current ∈ s.m_unvisited) →
      (s'.m_state = .Terminated → s'.m_unvisited = []) ∧
      (s'.m_state = .NextVertex ∨ s'.m_state = .Visiting → s'.m_current ∈ s'.m_unvisited) := by
  intro n
  induction n with
  | zero =>
    intro s s' h h1 h2
    obtain rfl := Option.some.inj h
    exact ⟨h1, h2⟩
  | succ m ih =>
    intro s s' h h1 h2
    rw [run] at h
    cases hn : s.next with
    | none => rw [hn] at h; simp at h
    | some s1 =>
      rw [hn] at h
      simp only [Option.bind_eq_bind, Option.some_bind'] at h
      obtain ⟨h1', h2'⟩ := next_pres_term hn h1 h2
      exact ih s1 s' h h1' h2'

end StepShape

/-- Claim C5 (amended): in every state reachable by `advance()` ticks from a
freshly constructed solver, `Terminated` implies the unvisited set is empty,
and an empty unvisited set implies the state is `Idle` or `Terminated` (the
converse "empty implies Terminated" fails: after the last vertex is removed
the machine sits in `Idle` for one tick, see the counterexample). -/
theorem C5_terminated_empty (g : Graph) (src : VertexId) (n : Nat) (s' : Solver)
    (h : run n (Solver.make g src) = some s') :
    (s'.m_state = .Terminated → s'.m_unvisited = []) ∧
    (s'.m_unvisited = [] → s'.m_state = .Idle ∨ s'.m_state = .Terminated) := by
  have h0 : (Solver.make g src).m_state = .Idle := by rw [make_eq]
  obtain ⟨h1, h2⟩ := run_pres_term n _ s' h (by simp [h0]) (by simp [h0])
  refine ⟨h1, fun hemp => ?_⟩
  cases hst : s'.m_state with
  | Idle => exact Or.inl rfl
  | Terminated => exact Or.inr rfl
  | NextVertex => have := h2 (Or.inl hst); rw [hemp] at this; simp at this
  | Visiting => have := h2 (Or.inr hst); rw [hemp] at this; simp at this

/-- Claim C5, witness: after 3 ticks the single-vertex solver is `Terminated`
with an empty unvisited set. -/
theorem C5_witness :
    run 3 (Solver.make g1 1) = some s1T ∧
    ((s1T.m_state = .Terminated → s1T.m_unvisited = []) ∧
     (s1T.m_unvisited = [] → s1T.m_state = .Idle ∨ s1T.m_state = .Terminated)) :=
  ⟨by decide, C5_terminated_empty g1 1 3 s1T (by decide)⟩

section Selection

theorem distOf_eq {t : Table} {v : VertexId} {e : TableEntry}
    (h : findEntry t v = some e) : distOf t v = e.m_dist := by
  rw [distOf, h]

theorem minGo_spec (t : Table) :
    ∀ (rest : List VertexId) (best : VertexId),
      (∀ v ∈ best :: rest, (findEntry t v).isSome) →
      ∃ u, Solver.minGo t best rest = some u ∧
        ((u = best ∧ ∀ x ∈ rest, distOf t best ≤ distOf t x) ∨
         (∃ l1 l2, rest = l1 ++ u :: l2 ∧ distOf t u < distOf t best ∧
           (∀ x ∈ l1, distOf t u < distOf t x) ∧
           (∀ x ∈ l2, distOf t u ≤ distOf t x))) := by
  intro rest
  induction rest with
  | nil =>
    intro best _
    exact ⟨best, rfl, Or.inl ⟨rfl, by simp⟩⟩
  | cons a rest' ih =>
    intro best hsome
    obtain ⟨ea, hea⟩ := Option.isSome_iff_exists.mp (hsome a (by simp))
    obtain ⟨eb, heb⟩ := Option.isSome_iff_exists.mp (hsome best (by simp))
    have hgo : Solver.minGo t best (a :: rest') =
        if ea.m_dist < eb.m_dist then Solver.minGo t a rest'
        else Solver.minGo t best rest' := by
      rw [Solver.minGo, hea, heb]
    by_cases hlt : ea.m_dist < eb.m_dist
    · rw [if_pos hlt] at hgo
      have hsome' : ∀ v ∈ a :: rest', (findEntry t v).isSome := by
        intro v hv
        rcases List.mem_cons.mp hv with rfl | hv
        · exact hsome v (by simp)
        · exact hsome v (by simp [hv])
      obtain ⟨u, hu, hcase⟩ := ih a hsome'
      refine ⟨u, hgo.trans hu, Or.inr ?_⟩
      have hab : distOf t a < distOf t best := by
        rw [distOf_eq hea, distOf_eq heb]
        exact hlt
      rcases hcase with ⟨rfl, hmin⟩ | ⟨l1, l2, hsplit, hua, hl1, hl2⟩
      · exact ⟨[], rest', rfl, hab, by simp, hmin⟩
      · exact ⟨a :: l1, l2, by simp [hsplit], lt_trans hua hab,
          by
            intro x hx
            rcases List.mem_cons.mp hx with rfl | hx
            · exact hua
            · exact hl1 x hx,
          hl2⟩
    · rw [if_neg hlt] at hgo
      have hsome' : ∀ v ∈ best :: rest', (findEntry t v).isSome := by
        intro v hv
        rcases List.mem_cons.mp hv with rfl | hv
        · exact hsome v (by simp)
        · exact hsome v (by simp [hv])
      obtain ⟨u, hu, hcase⟩ := ih best hsome'
      have hba : distOf t best ≤ distOf t a := by
        rw [distOf_eq hea, distOf_eq heb]
        omega
      rcases hcase with ⟨rfl, hmin⟩ | ⟨l1, l2, hsplit, hub, hl1, hl2⟩
      · refine ⟨u, hgo.trans hu, Or.inl ⟨rfl, ?_⟩⟩
        intro x hx
        rcases List.mem_cons.mp hx with rfl | hx
        · exact hba
        · exact hmin x hx
      · refine ⟨u, hgo.trans hu, Or.inr ⟨a :: l1, l2, by simp [hsplit],
          hub, ?_, hl2⟩⟩
        intro x hx
        rcases List.mem_cons.mp hx with rfl | hx
        · exact lt_of_lt_of_le hub hba
        · exact hl1 x hx

end Selection

/-- Claim C10: vertex selection in the `Idle` state is deterministic: the
selected vertex is the first element of the unvisited list (in its order)
whose recorded distance is minimal — every earlier element is strictly
larger, every element is at least as large, so ties (including ties at the
sentinel) resolve to the earliest listed vertex; two runs on the same graph
and source, being pure functions of the same state, make identical choices. -/
theorem C10_first_min (s : Solver)
    (hne : s.m_unvisited ≠ [])
    (hsome : ∀ v ∈ s.m_unvisited, (findEntry s.m_table v).isSome) :
    ∃ u l1 l2, s.next_unvisited = some u ∧
      s.m_unvisited = l1 ++ u :: l2 ∧
      (∀ x ∈ l1, distOf s.m_table u < distOf s.m_table x) ∧
      (∀ x ∈ s.m_unvisited, distOf s.m_table u ≤ distOf s.m_table x) := by
  cases hl : s.m_unvisited with
  | nil => exact absurd hl hne
  | cons x xs =>
    have hnu : s.next_unvisited = Solver.minGo s.m_table x xs := by
      rw [Solver.next_unvisited, hl]
    have hsome' : ∀ v ∈ x :: xs, (findEntry s.m_table v).isSome := by
      rw [← hl]; exact hsome
    obtain ⟨u, hu, hcase⟩ := minGo_spec s.m_table xs x hsome'
    rcases hcase with ⟨rfl, hmin⟩ | ⟨l1, l2, hsplit, hux, hl1, hl2⟩
    · refine ⟨u, [], xs, hnu.trans hu, by simp [hl], by simp, ?_⟩
      intro y hy
      rcases List.mem_cons.mp hy with rfl | hy
      · exact le_refl _
      · exact hmin y hy
    · refine ⟨u, x :: l1, l2, hnu.trans hu, by simp [hl, hsplit], ?_, ?_⟩
      · intro y hy
        rcases List.mem_cons.mp hy with rfl | hy
        · exact hux
        · exact hl1 y hy
      · intro y hy
        rw [hsplit] at hy
        rcases List.mem_cons.mp hy with rfl | hy
        · exact le_of_lt hux
        · rcases List.mem_append.mp hy with hy | hy
          · exact le_of_lt (hl1 y hy)
          · rcases List.mem_cons.mp hy with rfl | hy
            · exact le_refl _
            · exact hl2 y hy

/-- Claim C10, witness: in `sSel` the unvisited vertices 2, 3, 1 all tie at
distance 7 and the selection deterministically picks 2, the first in list
order. -/
theorem C10_witness :
    sSel.m_unvisited ≠ [] ∧
    (∀ v ∈ sSel.m_unvisited, (findEntry sSel.m_table v).isSome) ∧
    sSel.next_unvisited = some 2 ∧
    (∃ u l1 l2, sSel.next_unvisited = some u ∧
      sSel.m_unvisited = l1 ++ u :: l2 ∧
      (∀ x ∈ l1, distOf sSel.m_table u < distOf sSel.m_table x) ∧
      (∀ x ∈ sSel.m_unvisited, distOf sSel.m_table u ≤ distOf sSel.m_table x)) :=
  ⟨by decide, by decide, by decide,
    C10_first_min sSel (by decide) (by decide)⟩

/-- Claim C2 (amended): for a destination whose predecessor chain reaches the
source collecting the list `l`, `get_optimal_path` (with enough fuel)
terminates and returns `l.reverse` — the predecessors of the destination in
path order.  This sequence starts with the source (when non-empty) and ends at
the immediate predecessor of the destination: it includes the source and
excludes the destination, the reverse of the claimed endpoints. -/
theorem C2_path (s : Solver) (dest : VertexId) (l : List VertexId)
    (h : Follows s dest l) :
    ∀ fuel, l.length < fuel →
      s.get_optimal_path dest fuel = some (.ok l.reverse) ∧
      (l ≠ [] → l.reverse.head? = some s.m_source) := by
  intro fuel hf
  constructor
  · have := get_path_go_ok s h [] fuel hf
    simpa [Solver.get_optimal_path] using this
  · intro hne
    rw [List.head?_reverse]
    exact follows_last h hne

/-- Claim C2, witness: on the terminated `g3` solver the predecessor chain of
vertex 2 collects `[1]`, and reconstruction returns `[1]`, whose head is the
source. -/
theorem C2_witness :
    Follows s3T 2 [1] ∧
    (s3T.get_optimal_path 2 2 = some (.ok [1].reverse) ∧
      ([1] ≠ ([] : List VertexId) → [1].reverse.head? = some s3T.m_source)) :=
  have hf : Follows s3T 2 [1] := Follows.step (e := ⟨5, 1⟩) (by decide) rfl Follows.base
  ⟨hf, C2_path s3T 2 [1] hf 2 (by decide)⟩

/-- Claim C3 (amended): for a destination whose predecessor chain hits a
vertex with no table entry (in particular the none marker -1) before reaching
the source, `get_optimal_path` terminates for every sufficient fuel and fails
with the lookup failure (`std::out_of_range` of `m_table.at`, the spec's
NotFound kind) rather than looping or returning a partial path; being `const`,
the call leaves the solver unchanged. -/
theorem C3_fails (s : Solver) (dest bad : VertexId) (n : Nat)
    (h : ChainToNone s dest bad n) :
    ∀ fuel, n < fuel → s.get_optimal_path dest fuel = some (.lookupFail bad) := by
  intro fuel hf
  have := get_path_go_fails s h [] fuel hf
  simpa [Solver.get_optimal_path] using this

/-- Claim C3, witness: on the terminated `g2` solver, the chain from the
unreachable vertex 2 hits the none marker -1 after one step, and
reconstruction fails with the lookup failure at -1. -/
theorem C3_witness :
    ChainToNone s2T 2 (-1) 1 ∧
    s2T.get_optimal_path 2 2 = some (.lookupFail (-1)) :=
  have hc : ChainToNone s2T 2 (-1) 1 :=
    ChainToNone.step (e := ⟨999, -1⟩) (by decide) rfl (ChainToNone.base (by decide) rfl)
  ⟨hc, C3_fails s2T 2 (-1) 1 hc 2 (by decide)⟩

section SourceInvariant

theorem visit_shape_strong {s s1 : Solver} (h : s.visit_neighbour = some s1) :
    s1 = s ∨ ∃ (vtx : Vertex) (e : Edge) (ce oe : TableEntry),
      findEntry s.m_vertices s.m_current = some vtx ∧
      e ∈ vtx.m_neighbours ∧
      findEntry s.m_table vtx.m_id = some ce ∧
      findEntry s.m_table e.m_other_id = some oe ∧
      e.m_other_id ∈ s.m_unvisited ∧
      ce.m_dist + e.m_weight < oe.m_dist ∧
      s1 = { s with m_table := setEntry s.m_table e.m_other_id (⟨ce.m_dist + e.m_weight, vtx.m_id⟩ : TableEntry) } := by
  unfold Solver.visit_neighbour at h
  cases hv : findEntry s.m_vertices s.m_current with
  | none => rw [hv] at h; simp at h
  | some vtx =>
    rw [hv] at h
    simp only [Option.bind_eq_bind, Option.some_bind'] at h
    cases hc : findEntry s.m_table vtx.m_id with
    | none => rw [hc] at h; simp at h
    | some ce =>
      rw [hc] at h
      simp only [Option.bind_eq_bind, Option.some_bind'] at h
      cases he : vtx.m_neighbours[s.m_neighbour]? with
      | none => rw [he] at h; simp at h
      | some e =>
        rw [he] at h
        simp only [Option.bind_eq_bind, Option.some_bind'] at h
        by_cases hmem : e.m_other_id ∈ s.m_unvisited
        · rw [if_pos hmem] at h
          cases ho : findEntry s.m_table e.m_other_id with
          | none => rw [ho] at h; simp at h
          | some oe =>
            rw [ho] at h
            simp only [Option.bind_eq_bind, Option.some_bind'] at h
            by_cases hlt : ce.m_dist + e.m_weight < oe.m_dist
            · rw [if_pos hlt] at h
              simp only [Option.pure_def, Option.some.injEq] at h
              exact Or.inr ⟨vtx, e, ce, oe, rfl, List.getElem?_mem he, hc, ho,
                hmem, hlt, h.symm⟩
            · rw [if_neg hlt] at h
              simp only [Option.pure_def, Option.some.injEq] at h
              exact Or.inl h.symm
        · rw [if_neg hmem] at h
          simp only [Option.pure_def, Option.some.injEq] at h
          exact Or.inl h.symm

theorem next_table_shape {s s' : Solver} (h : s.next = some s') :
    s'.m_vertices = s.m_vertices ∧ s'.m_source = s.m_source ∧
    (s'.m_table = s.m_table ∨
      ∃ s1, s.visit_neighbour = some s1 ∧ s'.m_table = s1.m_table) := by
  cases hst : s.m_state with
  | Terminated =>
    rw [Solver.next, hst] at h
    obtain rfl := Option.some.inj h
    exact ⟨rfl, rfl, Or.inl rfl⟩
  | Idle =>
    rw [Solver.next, hst] at h
    by_cases hemp : s.m_unvisited.isEmpty
    · rw [if_pos hemp] at h
      obtain rfl := Option.some.inj h
      exact ⟨rfl, rfl, Or.inl rfl⟩
    · rw [if_neg hemp] at h
      cases hu : s.next_unvisited with
      | none => rw [hu] at h; simp at h
      | some u =>
        rw [hu] at h
        simp only [Option.bind_eq_bind, Option.some_bind', Option.some.injEq] at h
        subst h
        exact ⟨rfl, rfl, Or.inl rfl⟩
  | NextVertex =>
    rw [Solver.next, hst] at h
    cases hv : findEntry s.m_vertices s.m_current with
    | none => rw [hv] at h; simp at h
    | some vtx =>
      rw [hv] at h
      simp only [Option.bind_eq_bind, Option.some_bind'] at h
      by_cases hemp : vtx.m_neighbours.isEmpty
      · rw [if_pos hemp] at h
        obtain rfl := Option.some.inj h
        exact ⟨rfl, rfl, Or.inl rfl⟩
      · rw [if_neg hemp] at h
        obtain rfl := Option.some.inj h
        exact ⟨rfl, rfl, Or.inl rfl⟩
  | Visiting =>
    rw [Solver.next, hst] at h
    cases hv : findEntry s.m_vertices s.m_current with
    | none => rw [hv] at h; simp at h
    | some vtx =>
      rw [hv] at h
      cases hvis : s.visit_neighbour with
      | none => rw [hvis] at h; simp at h
      | some s1 =>
        rw [hvis] at h
        simp only [Option.bind_eq_bind, Option.some_bind'] at h
        obtain ⟨hkv, hks, _, _, _, _⟩ := visit_keeps hvis
        by_cases hend : s1.m_neighbour + 1 = vtx.m_neighbours.length
        · rw [if_pos hend] at h
          obtain rfl := Option.some.inj h
          exact ⟨hkv, hks, Or.inr ⟨s1, rfl, rfl⟩⟩
        · rw [if_neg hend] at h
          obtain rfl := Option.some.inj h
          exact ⟨hkv, hks, Or.inr ⟨s1, rfl, rfl⟩⟩

theorem J_next {g : Graph} {src : VertexId} (hw : NonNegWeights g)
    {s s' : Solver} (h : s.next = some s')
    (hv : s.m_vertices = g) (hsv : s.m_source = src)
    (hJ1 : ∀ v e, findEntry s.m_table v = some e → 0 ≤ e.m_dist)
    (hJ2 : findEntry s.m_table src = some ⟨0, -1⟩) :
    s'.m_vertices = g ∧ s'.m_source = src ∧
    (∀ v e, findEntry s'.m_table v = some e → 0 ≤ e.m_dist) ∧
    findEntry s'.m_table src = some ⟨0, -1⟩ := by
  obtain ⟨hv', hs', htab⟩ := next_table_shape h
  have key : s'.m_table = s.m_table ∨
      ∃ (k p : VertexId) (d : Int), 0 ≤ d ∧ k ≠ src ∧
        s'.m_table = setEntry s.m_table k ⟨d, p⟩ := by
    rcases htab with htab | ⟨s1, hvis, htab⟩
    · exact Or.inl htab
    · rcases visit_shape_strong hvis with rfl | ⟨vtx, e, ce, oe, hvv, hee, hc, ho, hmem, hlt, heq⟩
      · exact Or.inl htab
      · subst heq
        have hmemg : (s.m_current, vtx) ∈ g := hv ▸ findEntry_mem hvv
        have hwge : 0 ≤ e.m_weight := hw (s.m_current, vtx) hmemg e hee
        have hce : 0 ≤ ce.m_dist := hJ1 vtx.m_id ce hc
        have hd : 0 ≤ ce.m_dist + e.m_weight := by omega
        refine Or.inr ⟨e.m_other_id, vtx.m_id, ce.m_dist + e.m_weight, hd, ?_, htab⟩
        intro hk
        rw [hk, hJ2] at ho
        obtain rfl := Option.some.inj ho
        simp at hlt
        omega
  refine ⟨hv'.trans hv, hs'.trans hsv, ?_, ?_⟩
  · intro v te hte
    rcases key with hk | ⟨k, p, d, hd, hks, hk⟩
    · rw [hk] at hte
      exact hJ1 v te hte
    · rw [hk, findEntry_setEntry] at hte
      by_cases hkv : k = v
      · rw [if_pos hkv] at hte
        obtain rfl := Option.some.inj hte
        exact hd
      · rw [if_neg hkv] at hte
        exact hJ1 v te hte
  · rcases key with hk | ⟨k, p, d, hd, hks, hk⟩
    · rw [hk]
      exact hJ2
    · rw [hk, findEntry_setEntry, if_neg hks]
      exact hJ2

theorem J_reset {g : Graph} {src : VertexId} (hsrc : src ∈ keysOf g)
    {s : Solver} (hv : s.m_vertices = g) (hsv : s.m_source = src)
    (hJ1 : ∀ v e, findEntry s.m_table v = some e → 0 ≤ e.m_dist) :
    s.reset.m_vertices = g ∧ s.reset.m_source = src ∧
    (∀ v e, findEntry s.reset.m_table v = some e → 0 ≤ e.m_dist) ∧
    findEntry s.reset.m_table src = some ⟨0, -1⟩ := by
  rw [reset_eq]
  refine ⟨hv, hsv, ?_, ?_⟩
  · intro v e he
    rw [findEntry_initAssign] at he
    by_cases hk : v ∈ keysOf s.m_vertices
    · rw [if_pos hk] at he
      obtain rfl := Option.some.inj he
      by_cases hvs : v = s.m_source <;> simp [hvs, m_inf]
    · rw [if_neg hk] at he
      exact hJ1 v e he
  · rw [findEntry_initAssign, if_pos (by rw [hv, hsv] at *; exact hsrc)]
    simp [hsv]

end SourceInvariant

/-- Claim C8: for every graph with non-negative edge weights containing the
source, in every solver state reachable through construction, `advance()`
ticks and `reset()` calls, the source's table entry is exactly distance 0 with
predecessor -1 (the none marker). -/
theorem C8_source_entry (g : Graph) (src : VertexId)
    (hw : NonNegWeights g) (hsrc : src ∈ keysOf g) :
    ∀ s, ReachSt g src s → findEntry s.m_table src = some ⟨0, -1⟩ := by
  have main : ∀ s, ReachSt g src s →
      s.m_vertices = g ∧ s.m_source = src ∧
      (∀ v e, findEntry s.m_table v = some e → 0 ≤ e.m_dist) ∧
      findEntry s.m_table src = some ⟨0, -1⟩ := by
    intro s h
    induction h with
    | init =>
      rw [make_eq]
      refine ⟨rfl, rfl, ?_, ?_⟩
      · intro v e he
        simp only [findEntry_initAssign] at he
        by_cases hk : v ∈ keysOf g
        · rw [if_pos hk] at he
          obtain rfl := Option.some.inj he
          by_cases hvs : v = src <;> simp [hvs, m_inf]
        · rw [if_neg hk] at he
          simp [findEntry] at he
      · simp only [findEntry_initAssign, if_pos hsrc]
        simp
    | tick hr hn ih =>
      obtain ⟨hv, hsv, hJ1, hJ2⟩ := ih
      exact J_next hw hn hv hsv hJ1 hJ2
    | reset hr ih =>
      obtain ⟨hv, hsv, hJ1, hJ2⟩ := ih
      exact J_reset hsrc hv hsv hJ1
  intro s h
  exact (main s h).2.2.2

/-- Claim C8, witness: the freshly constructed solver on `g3` (source 1,
non-negative weights) has table entry distance 0, predecessor -1 at the
source. -/
theorem C8_witness :
    (∀ p ∈ g3, ∀ e ∈ p.2.m_neighbours, 0 ≤ e.m_weight) ∧
    (1 : VertexId) ∈ keysOf g3 ∧
    findEntry (Solver.make g3 1).m_table 1 = some ⟨0, -1⟩ :=
  ⟨by decide, by decide,
    C8_source_entry g3 1 (by decide) (by decide) _ ReachSt.init⟩

/-- Claim C9: a tick in the `NextVertex` state whose current vertex has zero
outgoing edges immediately ends the visiting of that vertex: the single tick
ends in `Idle`, removes the current vertex from the unvisited set, and leaves
the table (and every other field) unchanged — no relaxation is performed. -/
theorem C9_no_neighbours (s : Solver) (vtx : Vertex)
    (hst : s.m_state = .NextVertex)
    (hv : findEntry s.m_vertices s.m_current = some vtx)
    (hno : vtx.m_neighbours = []) :
    s.next = some { s with m_neighbour := 0,
                           m_unvisited := s.m_unvisited.filter (fun v => v ≠ s.m_current),
                           m_state := .Idle } := by
  simp [Solver.next, hst, hv, hno]

section VisitLemmas

theorem visit_eq_skip {s : Solver} {vtx : Vertex} {e : Edge} {ce : TableEntry}
    (hv : findEntry s.m_vertices s.m_current = some vtx)
    (hid : vtx.m_id = s.m_current)
    (he : vtx.m_neighbours[s.m_neighbour]? = some e)
    (hc : findEntry s.m_table s.m_current = some ce)
    (hmem : e.m_other_id ∉ s.m_unvisited) :
    s.visit_neighbour = some s := by
  simp [Solver.visit_neighbour, hv, hid, he, hc, hmem]

theorem visit_eq_update {s : Solver} {vtx : Vertex} {e : Edge} {ce oe : TableEntry}
    (hv : findEntry s.m_vertices s.m_current = some vtx)
    (hid : vtx.m_id = s.m_current)
    (he : vtx.m_neighbours[s.m_neighbour]? = some e)
    (hc : findEntry s.m_table s.m_current = some ce)
    (hmem : e.m_other_id ∈ s.m_unvisited)
    (hoe : findEntry s.m_table e.m_other_id = some oe)
    (hlt : ce.m_dist + e.m_weight < oe.m_dist) :
    s.visit_neighbour = some
      { s with m_table := setEntry s.m_table e.m_other_id (⟨ce.m_dist + e.m_weight, s.m_current⟩ : TableEntry) } := by
  simp [Solver.visit_neighbour, hv, hid, he, hc, hmem, hoe, hlt]

theorem visit_eq_keep {s : Solver} {vtx : Vertex} {e : Edge} {ce oe : TableEntry}
    (hv : findEntry s.m_vertices s.m_current = some vtx)
    (hid : vtx.m_id = s.m_current)
    (he : vtx.m_neighbours[s.m_neighbour]? = some e)
    (hc : findEntry s.m_table s.m_current = some ce)
    (hmem : e.m_other_id ∈ s.m_unvisited)
    (hoe : findEntry s.m_table e.m_other_id = some oe)
    (hnlt : ¬ ce.m_dist + e.m_weight < oe.m_dist) :
    s.visit_neighbour = some s := by
  simp [Solver.visit_neighbour, hv, hid, he, hc, hmem, hoe, hnlt]

theorem next_visiting_of_visit {s : Solver} {vtx : Vertex} {s1 : Solver}
    (hst : s.m_state = .Visiting)
    (hv : findEntry s.m_vertices s.m_current = some vtx)
    (hvis : s.visit_neighbour = some s1) :
    ∃ s', s.next = some s' ∧ s'.m_table = s1.m_table := by
  have hnext : s.next = if s1.m_neighbour + 1 = vtx.m_neighbours.length
      then some { s1 with m_neighbour := s1.m_neighbour + 1,
                          m_unvisited := s1.m_unvisited.filter (fun v => v ≠ s.m_current),
                          m_state := .Idle }
      else some { s1 with m_neighbour := s1.m_neighbour + 1 } := by
    simp [Solver.next, hst, hv, hvis]
  by_cases hend : s1.m_neighbour + 1 = vtx.m_neighbours.length
  · refine ⟨{ s1 with m_neighbour := s1.m_neighbour + 1,
                      m_unvisited := s1.m_unvisited.filter (fun v => v ≠ s.m_current),
                      m_state := .Idle }, ?_, rfl⟩
    rw [hnext, if_pos hend]
  · refine ⟨{ s1 with m_neighbour := s1.m_neighbour + 1 }, ?_, rfl⟩
    rw [hnext, if_neg hend]

end VisitLemmas

/-- Claim C4: in a `Visiting`-state tick with `e` the neighbour edge under the
cursor and `d = distance[current] + e.weight`, the neighbour's table entry is
overwritten with `⟨d, current⟩` exactly when the neighbour is still unvisited
and `d` is strictly smaller than its recorded distance; a neighbour no longer
unvisited is skipped and the table is unchanged. -/
theorem C4_relaxation (s : Solver) (vtx : Vertex) (e : Edge) (ce : TableEntry)
    (hst : s.m_state = .Visiting)
    (hv : findEntry s.m_vertices s.m_current = some vtx)
    (hid : vtx.m_id = s.m_current)
    (he : vtx.m_neighbours[s.m_neighbour]? = some e)
    (hc : findEntry s.m_table s.m_current = some ce)
    (hoth : e.m_other_id ∈ s.m_unvisited → ∃ oe, findEntry s.m_table e.m_other_id = some oe) :
    ∃ s', s.next = some s' ∧
      (e.m_other_id ∉ s.m_unvisited → s'.m_table = s.m_table) ∧
      (∀ oe, e.m_other_id ∈ s.m_unvisited → findEntry s.m_table e.m_other_id = some oe →
        s'.m_table = if ce.m_dist + e.m_weight < oe.m_dist
          then setEntry s.m_table e.m_other_id ⟨ce.m_dist + e.m_weight, s.m_current⟩
          else s.m_table) := by
  by_cases hmem : e.m_other_id ∈ s.m_unvisited
  · obtain ⟨oe, hoe⟩ := hoth hmem
    by_cases hlt : ce.m_dist + e.m_weight < oe.m_dist
    · obtain ⟨s', hn, ht⟩ :=
        next_visiting_of_visit hst hv (visit_eq_update hv hid he hc hmem hoe hlt)
      refine ⟨s', hn, fun h => absurd hmem h, fun oe' _ hoe' => ?_⟩
      rw [hoe] at hoe'
      obtain rfl := Option.some.inj hoe'
      rw [if_pos hlt]
      exact ht
    · obtain ⟨s', hn, ht⟩ :=
        next_visiting_of_visit hst hv (visit_eq_keep hv hid he hc hmem hoe hlt)
      refine ⟨s', hn, fun h => absurd hmem h, fun oe' _ hoe' => ?_⟩
      rw [hoe] at hoe'
      obtain rfl := Option.some.inj hoe'
      rw [if_neg hlt]
      exact ht
  · obtain ⟨s', hn, ht⟩ :=
      next_visiting_of_visit hst hv (visit_eq_skip hv hid he hc hmem)
    exact ⟨s', hn, fun _ => ht, fun oe' hmem' _ => absurd hmem' hmem⟩

/-- Claim C4, witness: in the concrete `Visiting` solver `sVis` (current
vertex 1, cursor on the edge 1 → 2 of weight 5, vertex 2 unvisited at
recorded distance 999), the tick overwrites vertex 2's entry with distance 5
and predecessor 1. -/
theorem C4_witness :
    sVis.m_state = .Visiting ∧
    findEntry sVis.m_vertices sVis.m_current = some ⟨1, [⟨2, 5⟩]⟩ ∧
    (⟨1, [⟨2, 5⟩]⟩ : Vertex).m_id = sVis.m_current ∧
    (⟨1, [⟨2, 5⟩]⟩ : Vertex).m_neighbours[sVis.m_neighbour]? = some ⟨2, 5⟩ ∧
    findEntry sVis.m_table sVis.m_current = some ⟨0, -1⟩ ∧
    (∃ s', sVis.next = some s' ∧
      ((⟨2, 5⟩ : Edge).m_other_id ∉ sVis.m_unvisited → s'.m_table = sVis.m_table) ∧
      (∀ oe, (⟨2, 5⟩ : Edge).m_other_id ∈ sVis.m_unvisited →
        findEntry sVis.m_table (⟨2, 5⟩ : Edge).m_other_id = some oe →
        s'.m_table = if (⟨0, -1⟩ : TableEntry).m_dist + (⟨2, 5⟩ : Edge).m_weight < oe.m_dist
          then setEntry sVis.m_table (⟨2, 5⟩ : Edge).m_other_id
            ⟨(⟨0, -1⟩ : TableEntry).m_dist + (⟨2, 5⟩ : Edge).m_weight, sVis.m_current⟩
          else sVis.m_table)) :=
  ⟨rfl, rfl, rfl, rfl, rfl,
    C4_relaxation sVis ⟨1, [⟨2, 5⟩]⟩ ⟨2, 5⟩ ⟨0, -1⟩ rfl rfl rfl rfl rfl
      (fun _ => ⟨⟨999, -1⟩, rfl⟩)⟩

/-- Claim C9, witness: the concrete `NextVertex` solver `sNV` on the
single-vertex graph satisfies the hypotheses, and its tick removes vertex 1
and returns to `Idle` with the table unchanged. -/
theorem C9_witness :
    sNV.m_state = .NextVertex ∧
    findEntry sNV.m_vertices sNV.m_current = some ⟨1, []⟩ ∧
    (⟨1, []⟩ : Vertex).m_neighbours = [] ∧
    sNV.next = some { sNV with m_neighbour := 0,
                               m_unvisited := sNV.m_unvisited.filter (fun v => v ≠ sNV.m_current),
                               m_state := .Idle } :=
  ⟨rfl, rfl, rfl, C9_no_neighbours sNV ⟨1, []⟩ rfl rfl rfl⟩

section PathTheory

theorem cost_nonneg {g : Graph} (hw : NonNegWeights g) :
    ∀ {u v : VertexId} {c : Int}, CostPath g u v c → 0 ≤ c := by
  intro u v c h
  induction h with
  | nil => exact le_refl 0
  | cons hmem he _ ih =>
    have := hw _ hmem _ he
    omega

theorem costPath_snoc {g : Graph} :
    ∀ {src u : VertexId} {c : Int}, CostPath g src u c →
      ∀ {vtx : Vertex} {e : Edge}, (u, vtx) ∈ g → e ∈ vtx.m_neighbours →
        CostPath g src e.m_other_id (c + e.m_weight) := by
  intro src u c h
  induction h with
  | nil =>
    intro vtx e hmem he
    have h2 := CostPath.cons hmem he (CostPath.nil e.m_other_id)
    simpa [add_comm] using h2
  | cons hmem1 he1 htail ih =>
    intro vtx e hmem he
    have h2 := CostPath.cons hmem1 he1 (ih hmem he)
    have h3 : ∀ a b c : Int, a + (b + c) = a + b + c := fun a b c => (add_assoc a b c).symm
    rw [h3] at h2
    exact h2

theorem viaPath_costPath {g : Graph} {S : VertexId → Prop} :
    ∀ {u v : VertexId} {c : Int}, ViaPath g S u v c → CostPath g u v c := by
  intro u v c h
  induction h with
  | nil => exact CostPath.nil _
  | cons hmem he _ _ ih => exact CostPath.cons hmem he ih

theorem costPath_end_key {g : Graph} (hwf : WellFormed g) :
    ∀ {u v : VertexId} {c : Int}, CostPath g u v c → v = u ∨ v ∈ keysOf g := by
  intro u v c h
  induction h with
  | nil => exact Or.inl rfl
  | cons hmem he _ ih =>
    rcases ih with rfl | hk
    · exact Or.inr (hwf.2.2 _ hmem _ he)
    · exact Or.inr hk

theorem viaPath_split {g : Graph} (hw : NonNegWeights g) (S : VertexId → Prop) :
    ∀ {a v : VertexId} {c : Int}, CostPath g a v c → ¬ S v →
      ∃ w c1, ¬ S w ∧ ViaPath g S a w c1 ∧ c1 ≤ c := by
  intro a v c h
  induction h with
  | nil => intro hv; exact ⟨_, 0, hv, ViaPath.nil _, le_refl 0⟩
  | cons hmem he htail ih =>
    intro hv
    rename_i u' v' c' vtx e
    by_cases hSa : S u'
    · obtain ⟨w, c1, hw1, hvia, hle⟩ := ih hv
      refine ⟨w, e.m_weight + c1, hw1, ViaPath.cons hmem he hSa hvia, by omega⟩
    · refine ⟨u', 0, hSa, ViaPath.nil _, ?_⟩
      have h1 : 0 ≤ c' := cost_nonneg hw htail
      have h2 := hw _ hmem _ he
      omega

theorem chain_bound {g : Graph} {t : Table} {S : VertexId → Prop}
    (hE : ∀ m vtxm, (m, vtxm) ∈ g → S m → ∀ e ∈ vtxm.m_neighbours,
      distOf t e.m_other_id ≤ distOf t m + e.m_weight) :
    ∀ {u v : VertexId} {c : Int}, ViaPath g S u v c →
      distOf t v ≤ distOf t u + c := by
  intro u v c h
  induction h with
  | nil => simp
  | cons hmem he hSu _ ih =>
    have h2 := hE _ _ hmem hSu _ he
    omega

theorem shortest_exists {g : Graph} (hw : NonNegWeights g) {src v : VertexId}
    {c0 : Int} (h : CostPath g src v c0) : ∃ d, ShortestDist g src v d := by
  obtain ⟨lb, hlb, hmin⟩ :=
    Int.exists_least_of_bdd (P := fun z => CostPath g src v z)
      ⟨0, fun z hz => cost_nonneg hw hz⟩ ⟨c0, h⟩
  exact ⟨lb, hlb, hmin⟩

theorem length_filter_ne_lt {l : List VertexId} {u : VertexId} (hu : u ∈ l) :
    (l.filter (fun v => v ≠ u)).length < l.length := by
  induction l with
  | nil => simp at hu
  | cons a l' ih =>
    by_cases ha : a = u
    · subst ha
      have h1 : (a :: l').filter (fun v => v ≠ a) = l'.filter (fun v => v ≠ a) := by
        simp
      rw [h1, List.length_cons]
      have h2 := List.length_filter_le (fun v => decide (v ≠ a)) l'
      omega
    · have h1 : u ∈ l' := by
        rcases List.mem_cons.mp hu with rfl | h1
        · exact absurd rfl ha
        · exact h1
      have h2 : (a :: l').filter (fun v => v ≠ u) =
          a :: l'.filter (fun v => v ≠ u) := by
        simp [List.filter_cons, ha]
      rw [h2, List.length_cons, List.length_cons]
      have := ih h1
      omega

end PathTheory

section RelaxFold

theorem distOf_setEntry (t : Table) (k : VertexId) (d : TableEntry) (x : VertexId) :
    distOf (setEntry t k d) x = if k = x then d.m_dist else distOf t x := by
  rw [distOf, findEntry_setEntry]
  by_cases hk : k = x
  · rw [if_pos hk, if_pos hk]
  · rw [if_neg hk, if_neg hk, distOf]

theorem relaxOne_cases (u : VertexId) (unvis : List VertexId) (t : Table) (e : Edge) :
    (e.m_other_id ∉ unvis ∧ relaxOne u unvis t e = t) ∨
    ((findEntry t u = none ∨ findEntry t e.m_other_id = none) ∧
      relaxOne u unvis t e = t) ∨
    (∃ cu co, e.m_other_id ∈ unvis ∧ findEntry t u = some cu ∧
      findEntry t e.m_other_id = some co ∧ ¬ cu.m_dist + e.m_weight < co.m_dist ∧
      relaxOne u unvis t e = t) ∨
    (∃ cu co, e.m_other_id ∈ unvis ∧ findEntry t u = some cu ∧
      findEntry t e.m_other_id = some co ∧ cu.m_dist + e.m_weight < co.m_dist ∧
      relaxOne u unvis t e =
        setEntry t e.m_other_id (⟨cu.m_dist + e.m_weight, u⟩ : TableEntry)) := by
  unfold relaxOne
  by_cases hmem : e.m_other_id ∈ unvis
  · rw [if_pos hmem]
    cases hcu : findEntry t u with
    | none =>
      refine Or.inr (Or.inl ⟨Or.inl rfl, ?_⟩)
      cases hco : findEntry t e.m_other_id <;> rfl
    | some cu =>
      cases hco : findEntry t e.m_other_id with
      | none => exact Or.inr (Or.inl ⟨Or.inr rfl, rfl⟩)
      | some co =>
        by_cases hlt : cu.m_dist + e.m_weight < co.m_dist
        · exact Or.inr (Or.inr (Or.inr ⟨cu, co, hmem, rfl, rfl, hlt, by simp [hlt]⟩))
        · exact Or.inr (Or.inr (Or.inl ⟨cu, co, hmem, rfl, rfl, hlt, by simp [hlt]⟩))
  · exact Or.inl ⟨hmem, by rw [if_neg hmem]⟩

theorem relaxOne_mono (u : VertexId) (unvis : List VertexId) (t : Table) (e : Edge)
    (x : VertexId) : distOf (relaxOne u unvis t e) x ≤ distOf t x := by
  rcases relaxOne_cases u unvis t e with ⟨-, heq⟩ | ⟨-, heq⟩ |
    ⟨cu, co, -, -, -, -, heq⟩ | ⟨cu, co, -, -, hco, hlt, heq⟩
  · rw [heq]
  · rw [heq]
  · rw [heq]
  · rw [heq, distOf_setEntry]
    by_cases hk : e.m_other_id = x
    · rw [if_pos hk]
      rw [hk] at hco
      rw [distOf_eq hco]
      simp
      omega
    · rw [if_neg hk]

theorem relaxList_mono (u : VertexId) (unvis : List VertexId) :
    ∀ (es : List Edge) (t : Table) (x : VertexId),
      distOf (relaxList u unvis t es) x ≤ distOf t x := by
  intro es
  induction es with
  | nil => intro t x; exact le_refl _
  | cons e rest ih =>
    intro t x
    have h1 := ih (relaxOne u unvis t e) x
    have h2 := relaxOne_mono u unvis t e x
    calc distOf (relaxList u unvis t (e :: rest)) x
        = distOf (relaxList u unvis (relaxOne u unvis t e) rest) x := rfl
      _ ≤ distOf (relaxOne u unvis t e) x := h1
      _ ≤ distOf t x := h2

theorem Mid_refl {g : Graph} {src u : VertexId} {unvis : List VertexId} {t0 : Table}
    (hpos : ∀ x, 0 ≤ distOf t0 x)
    (hach : ∀ x, distOf t0 x < m_inf → CostPath g src x (distOf t0 x)) :
    Mid g src u unvis t0 t0 :=
  ⟨fun _ => Iff.rfl, fun _ _ => rfl, rfl, fun _ => le_refl _, hpos,
    fun _ => Or.inl rfl, hach⟩

theorem Mid_relaxOne {g : Graph} {src u : VertexId} {unvis : List VertexId}
    {t0 t : Table} {vtx : Vertex} {e : Edge}
    (hw : NonNegWeights g) (hmemg : (u, vtx) ∈ g) (he : e ∈ vtx.m_neighbours)
    (hcap0 : ∀ x, distOf t0 x ≤ m_inf)
    (hM : Mid g src u unvis t0 t) :
    Mid g src u unvis t0 (relaxOne u unvis t e) := by
  rcases relaxOne_cases u unvis t e with ⟨-, heq⟩ | ⟨-, heq⟩ |
    ⟨cu, co, -, -, -, -, heq⟩ | ⟨cu, co, hmem, hcu, hco, hlt, heq⟩
  · rw [heq]; exact hM
  · rw [heq]; exact hM
  · rw [heq]; exact hM
  · have hcu_dist : distOf t u = cu.m_dist := distOf_eq hcu
    have hcu0 : findEntry t0 u = some cu := by rw [← hM.u_eq]; exact hcu
    have hcu0_dist : distOf t0 u = cu.m_dist := distOf_eq hcu0
    have hco_dist : distOf t e.m_other_id = co.m_dist := distOf_eq hco
    have hwpos : 0 ≤ e.m_weight := hw _ hmemg _ he
    have hcupos : 0 ≤ cu.m_dist := by
      have := hM.pos u
      rw [hcu_dist] at this
      exact this
    have hd999 : cu.m_dist + e.m_weight < m_inf := by
      have h1 := hM.mono e.m_other_id
      have h2 := hcap0 e.m_other_id
      omega
    have hach : CostPath g src e.m_other_id (cu.m_dist + e.m_weight) := by
      have hu999 : distOf t u < m_inf := by rw [hcu_dist]; omega
      have hp := hM.ach u hu999
      rw [hcu_dist] at hp
      exact costPath_snoc hp hmemg he
    have hne_u : e.m_other_id ≠ u := by
      intro hequ
      rw [hequ, hcu] at hco
      obtain rfl := Option.some.inj hco
      omega
    rw [heq]
    refine ⟨?_, ?_, ?_, ?_, ?_, ?_, ?_⟩
    · intro x
      rw [findEntry_setEntry]
      by_cases hx : e.m_other_id = x
      · rw [if_pos hx]
        have h1 := hM.keys_iff x
        rw [← hx] at h1
        rw [hco] at h1
        simp only [Option.isSome_some, true_iff] at h1
        rw [← hx]
        simp [h1]
      · rw [if_neg hx]
        exact hM.keys_iff x
    · intro x hx
      have hxne : e.m_other_id ≠ x := fun h => hx (h ▸ hmem)
      rw [findEntry_setEntry, if_neg hxne]
      exact hM.vis_eq x hx
    · rw [findEntry_setEntry, if_neg hne_u]
      exact hM.u_eq
    · intro x
      rw [distOf_setEntry]
      by_cases hx : e.m_other_id = x
      · rw [if_pos hx]
        have h1 := hM.mono x
        rw [← hx] at h1 ⊢
        rw [hco_dist] at h1
        simp
        omega
      · rw [if_neg hx]
        exact hM.mono x
    · intro x
      rw [distOf_setEntry]
      by_cases hx : e.m_other_id = x
      · rw [if_pos hx]
        simp
        omega
      · rw [if_neg hx]
        exact hM.pos x
    · intro x
      rw [distOf_setEntry]
      by_cases hx : e.m_other_id = x
      · rw [if_pos hx]
        right
        rw [hcu0_dist]
        simp
        omega
      · rw [if_neg hx]
        exact hM.low x
    · intro x
      rw [distOf_setEntry]
      by_cases hx : e.m_other_id = x
      · rw [if_pos hx]
        intro _
        simp only
        rw [← hx]
        exact hach
      · rw [if_neg hx]
        exact hM.ach x

theorem Mid_relaxList {g : Graph} {src u : VertexId} {unvis : List VertexId}
    {t0 : Table} {vtx : Vertex}
    (hw : NonNegWeights g) (hmemg : (u, vtx) ∈ g)
    (hcap0 : ∀ x, distOf t0 x ≤ m_inf) :
    ∀ (es : List Edge), (∀ e ∈ es, e ∈ vtx.m_neighbours) →
      ∀ (t : Table), Mid g src u unvis t0 t →
        Mid g src u unvis t0 (relaxList u unvis t es) := by
  intro es
  induction es with
  | nil => intro _ t hM; exact hM
  | cons e rest ih =>
    intro hsub t hM
    have h1 : Mid g src u unvis t0 (relaxOne u unvis t e) :=
      Mid_relaxOne hw hmemg (hsub e (by simp)) hcap0 hM
    have h2 : ∀ e' ∈ rest, e' ∈ vtx.m_neighbours := fun e' he' => hsub e' (by simp [he'])
    exact ih h2 (relaxOne u unvis t e) h1

theorem relaxList_bound {g : Graph} {src u : VertexId} {unvis : List VertexId}
    {t0 : Table} {vtx : Vertex}
    (hw : NonNegWeights g) (hmemg : (u, vtx) ∈ g)
    (hcap0 : ∀ x, distOf t0 x ≤ m_inf)
    (htk0 : ∀ x, (findEntry t0 x).isSome ↔ x ∈ keysOf g)
    (hukey : u ∈ keysOf g)
    (hD0 : ∀ x, x ∈ keysOf g → x ∉ unvis → distOf t0 x ≤ distOf t0 u)
    (hwfE : ∀ e ∈ vtx.m_neighbours, e.m_other_id ∈ keysOf g) :
    ∀ (es : List Edge), (∀ e' ∈ es, e' ∈ vtx.m_neighbours) →
      ∀ (t : Table), Mid g src u unvis t0 t →
        ∀ e ∈ es, distOf (relaxList u unvis t es) e.m_other_id ≤
          distOf t0 u + e.m_weight := by
  intro es
  induction es with
  | nil => intro _ t _ e he; simp at he
  | cons e0 rest ih =>
    intro hsub t hM e he
    have he0 : e0 ∈ vtx.m_neighbours := hsub e0 (by simp)
    have h1 : Mid g src u unvis t0 (relaxOne u unvis t e0) :=
      Mid_relaxOne hw hmemg he0 hcap0 hM
    have hsub' : ∀ e' ∈ rest, e' ∈ vtx.m_neighbours :=
      fun e' he' => hsub e' (by simp [he'])
    have hfold : relaxList u unvis t (e0 :: rest) =
        relaxList u unvis (relaxOne u unvis t e0) rest := rfl
    rcases List.mem_cons.mp he with rfl | he'
    · -- the bound for the edge processed at this step
      have hwpos : 0 ≤ e.m_weight := hw _ hmemg _ he0
      rcases relaxOne_cases u unvis t e with ⟨hnm, heq⟩ | ⟨hbad, heq⟩ |
        ⟨cu, co, hmem, hcu, hco, hnlt, heq⟩ | ⟨cu, co, hmem, hcu, hco, hlt, heq⟩
      · -- the target is already visited: its entry is never touched by the fold
        have hMfull : Mid g src u unvis t0 (relaxList u unvis t (e :: rest)) :=
          Mid_relaxList hw hmemg hcap0 (e :: rest) hsub t hM
        have hveq := hMfull.vis_eq e.m_other_id hnm
        have hd : distOf (relaxList u unvis t (e :: rest)) e.m_other_id =
            distOf t0 e.m_other_id := by
          rw [distOf, hveq, distOf]
        rw [hd]
        have := hD0 e.m_other_id (hwfE e he0) hnm
        omega
      · -- impossible: both looked-up entries exist
        exfalso
        rcases hbad with hbad | hbad
        · have h2 := hM.keys_iff u
          rw [hbad] at h2
          simp only [Option.isSome_none, Bool.false_eq_true, false_iff] at h2
          rw [htk0 u] at h2
          exact h2 hukey
        · have h2 := hM.keys_iff e.m_other_id
          rw [hbad] at h2
          simp only [Option.isSome_none, Bool.false_eq_true, false_iff] at h2
          rw [htk0 e.m_other_id] at h2
          exact h2 (hwfE e he0)
      · -- no update: the entry already meets the bound, and can only decrease
        have hcu0 : findEntry t0 u = some cu := by rw [← hM.u_eq]; exact hcu
        have hle1 : distOf t e.m_other_id ≤ distOf t0 u + e.m_weight := by
          rw [distOf_eq hco, distOf_eq hcu0]
          omega
        rw [hfold, heq]
        have := relaxList_mono u unvis rest t e.m_other_id
        omega
      · -- update: the entry becomes exactly dist(u) + weight, then only decreases
        have hcu0 : findEntry t0 u = some cu := by rw [← hM.u_eq]; exact hcu
        have hle1 : distOf (relaxOne u unvis t e) e.m_other_id =
            distOf t0 u + e.m_weight := by
          rw [heq, distOf_setEntry, if_pos rfl, distOf_eq hcu0]
        rw [hfold]
        have := relaxList_mono u unvis rest (relaxOne u unvis t e) e.m_other_id
        omega
    · rw [hfold]
      exact ih hsub' (relaxOne u unvis t e0) h1 e he'

end RelaxFold

section RoundInvariant

theorem distOf_initAssign (g : Graph) (src : VertexId) (x : VertexId) :
    distOf (initAssign src [] g) x =
      if x ∈ keysOf g then (if x = src then 0 else m_inf) else m_inf := by
  by_cases hk : x ∈ keysOf g
  · rw [distOf, findEntry_initAssign, if_pos hk, if_pos hk]
  · rw [distOf, findEntry_initAssign, if_neg hk, if_neg hk]
    rfl

theorem selection_done {g : Graph} {src : VertexId}
    (hwf : WellFormed g) (hw : NonNegWeights g)
    (hcap : ∀ v d, ShortestDist g src v d → d < m_inf)
    {s : Solver} (hInv : Inv g src s)
    {u : VertexId} (hu : u ∈ s.m_unvisited)
    (hmin : ∀ x ∈ s.m_unvisited, distOf s.m_table u ≤ distOf s.m_table x) :
    DoneV g src s.m_table u := by
  have hEform : ∀ m vtxm, (m, vtxm) ∈ g → VisitedPred s m →
      ∀ e ∈ vtxm.m_neighbours,
        distOf s.m_table e.m_other_id ≤ distOf s.m_table m + e.m_weight :=
    fun m vtxm hm hS e he => hInv.hE m vtxm hm hS.2 e he
  have hCfun : ∀ v c, ViaPath g (VisitedPred s) src v c →
      distOf s.m_table v ≤ c := by
    intro v c hvia
    have h1 := chain_bound hEform hvia
    rw [hInv.hsrc0] at h1
    omega
  have hDu_le : ∀ c, CostPath g src u c → distOf s.m_table u ≤ c := by
    intro c hc
    have hSu : ¬ VisitedPred s u := fun h => h.2 hu
    obtain ⟨w, c1, hSw, hvia, hle⟩ := viaPath_split hw (VisitedPred s) hc hSu
    have hwkey : w ∈ keysOf g := by
      rcases costPath_end_key hwf (viaPath_costPath hvia) with rfl | hk
      · exact hInv.hsk
      · exact hk
    have hwunvis : w ∈ s.m_unvisited := by
      by_contra hcon
      have hwkey2 : w ∈ keysOf s.m_vertices := by rw [hInv.hg]; exact hwkey
      exact hSw ⟨hwkey2, hcon⟩
    have h2 := hCfun w c1 hvia
    have h3 := hmin w hwunvis
    omega
  have hukey : u ∈ keysOf g := hInv.hsub u hu
  obtain ⟨eu, heu⟩ := Option.isSome_iff_exists.mp ((hInv.htk u).mpr hukey)
  have hdu : distOf s.m_table u = eu.m_dist := distOf_eq heu
  by_cases hreach : ReachableFrom g src u
  · obtain ⟨c0, hc0⟩ := hreach
    obtain ⟨d, hsd⟩ := shortest_exists hw hc0
    have hd999 : d < m_inf := hcap u d hsd
    have hle : distOf s.m_table u ≤ d := hDu_le d hsd.1
    have hlt999 : distOf s.m_table u < m_inf := by omega
    have hachieve := hInv.hA u hlt999
    refine ⟨eu, heu, fun _ => ?_, fun hnr => absurd ⟨c0, hc0⟩ hnr⟩
    rw [← hdu]
    exact ⟨hachieve, hDu_le⟩
  · refine ⟨eu, heu, fun hr => absurd hr hreach, fun _ => ?_⟩
    by_contra hne
    have hlt : distOf s.m_table u < m_inf := by
      have h1 := (hInv.hF u).2
      rw [hdu] at h1 ⊢
      omega
    exact hreach ⟨_, hInv.hA u hlt⟩

theorem Inv_round {g : Graph} {src : VertexId}
    (hwf : WellFormed g) (hw : NonNegWeights g)
    (hcap : ∀ v d, ShortestDist g src v d → d < m_inf)
    {s : Solver} (hInv : Inv g src s)
    {u : VertexId} (hu : u ∈ s.m_unvisited)
    (hmin : ∀ x ∈ s.m_unvisited, distOf s.m_table u ≤ distOf s.m_table x)
    {vtx : Vertex} (hvtx : (u, vtx) ∈ g) (c' : VertexId) (n' : Nat) :
    Inv g src { s with m_current := c', m_neighbour := n',
                       m_table := relaxList u s.m_unvisited s.m_table vtx.m_neighbours,
                       m_unvisited := s.m_unvisited.filter (fun v => v ≠ u),
                       m_state := .Idle } := by
  have hukey : u ∈ keysOf g := hInv.hsub u hu
  have hcap0 : ∀ x, distOf s.m_table x ≤ m_inf := fun x => (hInv.hF x).2
  have hpos0 : ∀ x, 0 ≤ distOf s.m_table x := fun x => (hInv.hF x).1
  have hM : Mid g src u s.m_unvisited s.m_table
      (relaxList u s.m_unvisited s.m_table vtx.m_neighbours) :=
    Mid_relaxList hw hvtx hcap0 vtx.m_neighbours (fun _ he => he) s.m_table
      (Mid_refl hpos0 hInv.hA)
  have hwfE : ∀ e ∈ vtx.m_neighbours, e.m_other_id ∈ keysOf g :=
    fun e he => hwf.2.2 _ hvtx e he
  have hD0 : ∀ x, x ∈ keysOf g → x ∉ s.m_unvisited →
      distOf s.m_table x ≤ distOf s.m_table u :=
    fun x hk hnx => hInv.hD x hk hnx u hu
  have hbound := relaxList_bound hw hvtx hcap0 hInv.htk hukey hD0 hwfE
    vtx.m_neighbours (fun _ he => he) s.m_table (Mid_refl hpos0 hInv.hA)
  have hDone_u : DoneV g src s.m_table u := selection_done hwf hw hcap hInv hu hmin
  have hmem_new : ∀ x, x ∈ s.m_unvisited.filter (fun v => v ≠ u) ↔
      (x ∈ s.m_unvisited ∧ x ≠ u) := by
    intro x
    simp [List.mem_filter]
  have hdu' : distOf (relaxList u s.m_unvisited s.m_table vtx.m_neighbours) u =
      distOf s.m_table u := by
    rw [distOf, hM.u_eq, distOf]
  have hvis' : ∀ x, x ∉ s.m_unvisited →
      distOf (relaxList u s.m_unvisited s.m_table vtx.m_neighbours) x =
        distOf s.m_table x := by
    intro x hx
    rw [distOf, hM.vis_eq x hx, distOf]
  refine ⟨hInv.hg, hInv.hsrc, rfl, ?_, ?_, ?_, ?_, ?_, ?_, ?_, ?_, ?_, hInv.hsk, ?_⟩
  · -- hnodup
    exact hInv.hnodup.filter _
  · -- hsub
    intro v hv
    exact hInv.hsub v ((hmem_new v).mp hv).1
  · -- htk
    intro v
    rw [hM.keys_iff v]
    exact hInv.htk v
  · -- hA
    exact hM.ach
  · -- hB
    intro v hvk hvn
    rw [hmem_new v] at hvn
    push_neg at hvn
    by_cases hvu : v = u
    · subst hvu
      obtain ⟨eu, heu, h1, h2⟩ := hDone_u
      exact ⟨eu, by rw [hM.u_eq]; exact heu, h1, h2⟩
    · have hvold : v ∉ s.m_unvisited := by
        by_cases hmem : v ∈ s.m_unvisited
        · exact absurd (hvn hmem) hvu
        · exact hmem
      obtain ⟨ev, hev, h1, h2⟩ := hInv.hB v hvk hvold
      exact ⟨ev, by rw [hM.vis_eq v hvold]; exact hev, h1, h2⟩
  · -- hsrc0
    show distOf (relaxList u s.m_unvisited s.m_table vtx.m_neighbours) src = 0
    have h1 := hM.mono src
    have h2 := hM.pos src
    have h3 := hInv.hsrc0
    omega
  · -- hD
    intro m hmk hmn x hx
    show distOf (relaxList u s.m_unvisited s.m_table vtx.m_neighbours) m ≤
      distOf (relaxList u s.m_unvisited s.m_table vtx.m_neighbours) x
    rw [hmem_new m] at hmn
    push_neg at hmn
    obtain ⟨hxu, hxne⟩ := (hmem_new x).mp hx
    have hlowx := hM.low x
    by_cases hmu : m = u
    · subst hmu
      rw [hdu']
      rcases hlowx with hlx | hlx
      · rw [hlx]
        exact hmin x hxu
      · exact hlx
    · have hmold : m ∉ s.m_unvisited := by
        by_cases hmem : m ∈ s.m_unvisited
        · exact absurd (hmn hmem) hmu
        · exact hmem
      rw [hvis' m hmold]
      rcases hlowx with hlx | hlx
      · rw [hlx]
        exact hInv.hD m hmk hmold x hxu
      · have h1 := hInv.hD m hmk hmold u hu
        omega
  · -- hE
    intro m vtxm hmg hmn e he
    show distOf (relaxList u s.m_unvisited s.m_table vtx.m_neighbours) e.m_other_id ≤
      distOf (relaxList u s.m_unvisited s.m_table vtx.m_neighbours) m + e.m_weight
    rw [hmem_new m] at hmn
    push_neg at hmn
    by_cases hmu : m = u
    · subst hmu
      have hveq : vtxm = vtx := findEntry_unique hwf.1 hmg hvtx
      subst hveq
      have h1 := hbound e he
      rw [hdu']
      exact h1
    · have hmold : m ∉ s.m_unvisited := by
        by_cases hmem : m ∈ s.m_unvisited
        · exact absurd (hmn hmem) hmu
        · exact hmem
      rw [hvis' m hmold]
      have h1 := hInv.hE m vtxm hmg hmold e he
      have h2 := hM.mono e.m_other_id
      omega
  · -- hF
    intro v
    exact ⟨hM.pos v, le_trans (hM.mono v) (hcap0 v)⟩
  · -- hS
    left
    rcases hInv.hS with hs | hs
    · intro hcon
      exact hs ((hmem_new src).mp hcon).1
    · by_cases hsrcmem : src ∈ s.m_unvisited
      · have husrc : u = src := by
          by_contra hne
          have h1 := hmin src hsrcmem
          have h2 : distOf s.m_table u = m_inf := by
            rw [hs, distOf_initAssign]
            rw [if_pos hukey, if_neg hne]
          rw [hInv.hsrc0] at h1
          rw [h2] at h1
          have h3 : (0 : Int) < m_inf := by rw [m_inf]; omega
          omega
        subst husrc
        intro hcon
        exact ((hmem_new u).mp hcon).2 rfl
      · intro hcon
        exact hsrcmem ((hmem_new src).mp hcon).1

end RoundInvariant

section MachineRound

theorem relaxOne_isSome (u : VertexId) (unvis : List VertexId) (t : Table) (e : Edge)
    (x : VertexId) :
    (findEntry (relaxOne u unvis t e) x).isSome = (findEntry t x).isSome := by
  rcases relaxOne_cases u unvis t e with ⟨-, heq⟩ | ⟨-, heq⟩ |
    ⟨cu, co, -, -, -, -, heq⟩ | ⟨cu, co, -, -, hco, -, heq⟩
  · rw [heq]
  · rw [heq]
  · rw [heq]
  · rw [heq, findEntry_setEntry]
    by_cases hx : e.m_other_id = x
    · rw [if_pos hx]
      rw [hx] at hco
      rw [hco]
      rfl
    · rw [if_neg hx]

theorem visit_eq_relaxOne {s : Solver} {vtx : Vertex} {e : Edge}
    (hv : findEntry s.m_vertices s.m_current = some vtx)
    (hid : vtx.m_id = s.m_current)
    (he : vtx.m_neighbours[s.m_neighbour]? = some e)
    (htc : (findEntry s.m_table s.m_current).isSome)
    (hoth : e.m_other_id ∈ s.m_unvisited → (findEntry s.m_table e.m_other_id).isSome) :
    s.visit_neighbour =
      some { s with m_table := relaxOne s.m_current s.m_unvisited s.m_table e } := by
  obtain ⟨ce, hce⟩ := Option.isSome_iff_exists.mp htc
  rcases relaxOne_cases s.m_current s.m_unvisited s.m_table e with ⟨hnm, heq⟩ |
    ⟨hbad, heq⟩ | ⟨cu, co, hmem, hcu, hco, hnlt, heq⟩ | ⟨cu, co, hmem, hcu, hco, hlt, heq⟩
  · rw [heq, visit_eq_skip hv hid he hce hnm]
  · by_cases hmem : e.m_other_id ∈ s.m_unvisited
    · exfalso
      rcases hbad with hbad | hbad
      · rw [hce] at hbad
        exact Option.noConfusion hbad
      · have h1 := hoth hmem
        rw [hbad] at h1
        exact Bool.noConfusion h1
    · rw [heq, visit_eq_skip hv hid he hce hmem]
  · have hcc : cu = ce := by
      rw [hce] at hcu
      exact (Option.some.inj hcu).symm
    subst hcc
    rw [heq, visit_eq_keep hv hid he hce hmem hco hnlt]
  · have hcc : cu = ce := by
      rw [hce] at hcu
      exact (Option.some.inj hcu).symm
    subst hcc
    rw [heq, visit_eq_update hv hid he hce hmem hco hlt]

theorem visiting_phase :
    ∀ (k : Nat) (s : Solver) (vtx : Vertex),
      s.m_state = .Visiting →
      findEntry s.m_vertices s.m_current = some vtx →
      vtx.m_id = s.m_current →
      s.m_neighbour + k = vtx.m_neighbours.length →
      1 ≤ k →
      (∀ v, (findEntry s.m_table v).isSome ↔ v ∈ keysOf s.m_vertices) →
      (∀ v ∈ s.m_unvisited, v ∈ keysOf s.m_vertices) →
      s.m_current ∈ keysOf s.m_vertices →
      run k s = some { s with
        m_table := relaxList s.m_current s.m_unvisited s.m_table
          (vtx.m_neighbours.drop s.m_neighbour),
        m_neighbour := vtx.m_neighbours.length,
        m_unvisited := s.m_unvisited.filter (fun v => v ≠ s.m_current),
        m_state := .Idle } := by
  intro k
  induction k with
  | zero =>
    intro s vtx _ _ _ _ hk
    exact absurd hk (by omega)
  | succ k' ih =>
    intro s vtx hst hv hid hlen hk htk hsub hcur
    have hidx : s.m_neighbour < vtx.m_neighbours.length := by omega
    obtain ⟨e, he⟩ : ∃ e, vtx.m_neighbours[s.m_neighbour]? = some e := by
      cases he0 : vtx.m_neighbours[s.m_neighbour]? with
      | none =>
        rw [List.getElem?_eq_none_iff] at he0
        omega
      | some e => exact ⟨e, rfl⟩
    have hdrop : vtx.m_neighbours.drop s.m_neighbour =
        e :: vtx.m_neighbours.drop (s.m_neighbour + 1) := by
      have h1 := List.getElem_cons_drop vtx.m_neighbours s.m_neighbour hidx
      have h2 : vtx.m_neighbours[s.m_neighbour] = e := by
        have h3 := List.getElem?_eq_getElem hidx
        rw [he] at h3
        exact (Option.some.inj h3).symm
      rw [← h1, h2]
    have htc : (findEntry s.m_table s.m_current).isSome := (htk _).mpr hcur
    have hoth : e.m_other_id ∈ s.m_unvisited →
        (findEntry s.m_table e.m_other_id).isSome :=
      fun hm => (htk _).mpr (hsub _ hm)
    have hvis := visit_eq_relaxOne hv hid he htc hoth
    have hnext : s.next = if s.m_neighbour + 1 = vtx.m_neighbours.length
        then some { s with
          m_table := relaxOne s.m_current s.m_unvisited s.m_table e,
          m_neighbour := s.m_neighbour + 1,
          m_unvisited := s.m_unvisited.filter (fun v => v ≠ s.m_current),
          m_state := .Idle }
        else some { s with
          m_table := relaxOne s.m_current s.m_unvisited s.m_table e,
          m_neighbour := s.m_neighbour + 1 } := by
      simp [Solver.next, hst, hv, hvis]
    cases Nat.eq_or_lt_of_le hk with
    | inl hk1 =>
      -- k' + 1 = 1: this is the last neighbour
      have hk0 : k' = 0 := by omega
      subst hk0
      have hend : s.m_neighbour + 1 = vtx.m_neighbours.length := by omega
      have hdrop2 : vtx.m_neighbours.drop (s.m_neighbour + 1) = [] :=
        List.drop_eq_nil_of_le (by omega)
      have hrun : run 1 s = s.next := by
        show (s.next).bind (run 0) = s.next
        cases s.next <;> rfl
      rw [hrun, hnext, if_pos hend]
      rw [hdrop, hdrop2]
      rw [← hend]
      rfl
    | inr hk2 =>
      -- at least one more neighbour follows
      have hne : ¬ s.m_neighbour + 1 = vtx.m_neighbours.length := by omega
      have hrun : run (k' + 1) s =
          run k' { s with
            m_table := relaxOne s.m_current s.m_unvisited s.m_table e,
            m_neighbour := s.m_neighbour + 1 } := by
        show (s.next).bind (run k') = _
        rw [hnext, if_neg hne]
        rfl
      rw [hrun]
      have hres := ih { s with
          m_table := relaxOne s.m_current s.m_unvisited s.m_table e,
          m_neighbour := s.m_neighbour + 1 } vtx hst hv hid
        (by show s.m_neighbour + 1 + k' = vtx.m_neighbours.length; omega)
        (by omega)
        (by
          intro v
          show (findEntry (relaxOne s.m_current s.m_unvisited s.m_table e) v).isSome ↔
            v ∈ keysOf s.m_vertices
          rw [relaxOne_isSome]
          exact htk v)
        hsub hcur
      rw [hres]
      rw [hdrop]
      rfl

theorem next_unvisited_min {s : Solver} (hne : s.m_unvisited ≠ [])
    (hsome : ∀ v ∈ s.m_unvisited, (findEntry s.m_table v).isSome) :
    ∃ u, s.next_unvisited = some u ∧ u ∈ s.m_unvisited ∧
      ∀ x ∈ s.m_unvisited, distOf s.m_table u ≤ distOf s.m_table x := by
  cases hl : s.m_unvisited with
  | nil => exact absurd hl hne
  | cons x xs =>
    have hnu : s.next_unvisited = Solver.minGo s.m_table x xs := by
      rw [Solver.next_unvisited, hl]
    have hsome' : ∀ v ∈ x :: xs, (findEntry s.m_table v).isSome := by
      rw [← hl]; exact hsome
    obtain ⟨u, hu, hcase⟩ := minGo_spec s.m_table xs x hsome'
    rcases hcase with ⟨rfl, hmin⟩ | ⟨l1, l2, hsplit, hux, hl1, hl2⟩
    · refine ⟨u, hnu.trans hu, by simp, ?_⟩
      intro y hy
      rcases List.mem_cons.mp hy with rfl | hy
      · exact le_refl _
      · exact hmin y hy
    · refine ⟨u, hnu.trans hu, by simp [hsplit], ?_⟩
      intro y hy
      rw [hsplit] at hy
      rcases List.mem_cons.mp hy with rfl | hy
      · exact le_of_lt hux
      · rcases List.mem_append.mp hy with hy | hy
        · exact le_of_lt (hl1 y hy)
        · rcases List.mem_cons.mp hy with rfl | hy
          · exact le_refl _
          · exact hl2 y hy

theorem run_trans :
    ∀ (k1 : Nat) (s s1 : Solver), run k1 s = some s1 →
      ∀ (k2 : Nat), run (k1 + k2) s = run k2 s1 := by
  intro k1
  induction k1 with
  | zero =>
    intro s s1 h k2
    obtain rfl := Option.some.inj h
    rw [Nat.zero_add]
  | succ m ih =>
    intro s s1 h k2
    replace h : (s.next).bind (run m) = some s1 := h
    cases hn : s.next with
    | none =>
      rw [hn] at h
      exact absurd h (by simp)
    | some sa =>
      rw [hn] at h
      simp only [Option.bind_eq_bind, Option.some_bind'] at h
      have h2 : run (m + 1 + k2) s = run (m + k2) sa := by
        rw [Nat.succ_add]
        show (s.next).bind (run (m + k2)) = _
        rw [hn]
        rfl
      rw [h2, ih sa s1 h k2]

theorem round_step {g : Graph} {src : VertexId}
    (hwf : WellFormed g) (hw : NonNegWeights g)
    (hcap : ∀ v d, ShortestDist g src v d → d < m_inf)
    {s : Solver} (hInv : Inv g src s) (hne : s.m_unvisited ≠ []) :
    ∃ (k : Nat) (s' : Solver), run k s = some s' ∧ Inv g src s' ∧
      s'.m_unvisited.length < s.m_unvisited.length := by
  have hsome : ∀ v ∈ s.m_unvisited, (findEntry s.m_table v).isSome :=
    fun v hv => (hInv.htk v).mpr (hInv.hsub v hv)
  obtain ⟨u, hnu, humem, hmin⟩ := next_unvisited_min hne hsome
  have hukey : u ∈ keysOf g := hInv.hsub u humem
  have hukey2 : u ∈ keysOf s.m_vertices := by rw [hInv.hg]; exact hukey
  obtain ⟨vtx, hvfe⟩ := mem_of_findEntry_isSome hukey2
  have hvmem : (u, vtx) ∈ g := by rw [← hInv.hg]; exact findEntry_mem hvfe
  have hid : vtx.m_id = u := hwf.2.1 (u, vtx) hvmem
  have hA : s.next = some { s with m_current := u, m_state := .NextVertex } := by
    have hie : s.m_unvisited.isEmpty = false := by
      cases hl : s.m_unvisited with
      | nil => exact absurd hl hne
      | cons a l => rfl
    simp [Solver.next, hInv.hstate, hie, hnu]
  by_cases hdeg : vtx.m_neighbours = []
  · -- the selected vertex has no outgoing edges: two ticks back to Idle
    have hB : ({ s with m_current := u, m_state := .NextVertex } : Solver).next =
        some { s with m_current := u, m_neighbour := 0,
                      m_unvisited := s.m_unvisited.filter (fun v => v ≠ u),
                      m_state := .Idle } := by
      simp [Solver.next, hvfe, hdeg]
    refine ⟨2, { s with m_current := u, m_neighbour := 0,
                        m_unvisited := s.m_unvisited.filter (fun v => v ≠ u),
                        m_state := .Idle }, ?_, ?_, length_filter_ne_lt humem⟩
    · show (s.next).bind (run 1) = _
      rw [hA]
      show run 1 _ = _
      show (Solver.next _).bind (run 0) = _
      rw [hB]
      rfl
    · have hres := Inv_round hwf hw hcap hInv humem hmin hvmem u 0
      rw [hdeg] at hres
      exact hres
  · -- the selected vertex has deg ≥ 1 edges: 2 + deg ticks
    have hC : ({ s with m_current := u, m_state := .NextVertex } : Solver).next =
        some { s with m_current := u, m_neighbour := 0, m_state := .Visiting } := by
      simp [Solver.next, hvfe, hdeg]
    have hlen : 1 ≤ vtx.m_neighbours.length := by
      cases hl : vtx.m_neighbours with
      | nil => exact absurd hl hdeg
      | cons a l => simp
    have hphase := visiting_phase vtx.m_neighbours.length
      { s with m_current := u, m_neighbour := 0, m_state := .Visiting } vtx
      rfl hvfe hid (by show 0 + vtx.m_neighbours.length = _; omega) hlen
      (by
        intro v
        show (findEntry s.m_table v).isSome ↔ v ∈ keysOf s.m_vertices
        rw [hInv.hg]
        exact hInv.htk v)
      (by
        intro v hv
        show v ∈ keysOf s.m_vertices
        rw [hInv.hg]
        exact hInv.hsub v hv)
      hukey2
    refine ⟨vtx.m_neighbours.length + 2,
      { s with m_current := u, m_neighbour := vtx.m_neighbours.length,
               m_table := relaxList u s.m_unvisited s.m_table (vtx.m_neighbours.drop 0),
               m_unvisited := s.m_unvisited.filter (fun v => v ≠ u),
               m_state := .Idle }, ?_, ?_, ?_⟩
    · have h1 : run (vtx.m_neighbours.length + 2) s =
          run (vtx.m_neighbours.length + 1)
            { s with m_current := u, m_state := .NextVertex } := by
        show (s.next).bind (run (vtx.m_neighbours.length + 1)) = _
        rw [hA]
        rfl
      have h2 : run (vtx.m_neighbours.length + 1)
            ({ s with m_current := u, m_state := .NextVertex } : Solver) =
          run vtx.m_neighbours.length
            { s with m_current := u, m_neighbour := 0, m_state := .Visiting } := by
        show (Solver.next _).bind (run vtx.m_neighbours.length) = _
        rw [hC]
        rfl
      rw [h1, h2, hphase]
    · have hres := Inv_round hwf hw hcap hInv humem hmin hvmem u
        vtx.m_neighbours.length
      exact hres
    · exact length_filter_ne_lt humem

theorem run_to_terminated {g : Graph} {src : VertexId}
    (hwf : WellFormed g) (hw : NonNegWeights g)
    (hcap : ∀ v d, ShortestDist g src v d → d < m_inf) :
    ∀ (n : Nat) (s : Solver), Inv g src s → s.m_unvisited.length ≤ n →
      ∃ (k : Nat) (s' : Solver), run k s = some s' ∧ s'.m_state = .Terminated ∧
        ∀ v ∈ keysOf g, DoneV g src s'.m_table v := by
  intro n
  induction n with
  | zero =>
    intro s hInv hlen
    have hemp : s.m_unvisited = [] := List.length_eq_zero.mp (by omega)
    have hn : s.next = some { s with m_state := .Terminated } := by
      simp [Solver.next, hInv.hstate, hemp]
    refine ⟨1, { s with m_state := .Terminated }, ?_, rfl, ?_⟩
    · show (s.next).bind (run 0) = _
      rw [hn]
      rfl
    · intro v hv
      exact hInv.hB v hv (by rw [hemp]; simp)
  | succ m ih =>
    intro s hInv hlen
    by_cases hemp : s.m_unvisited = []
    · have hn : s.next = some { s with m_state := .Terminated } := by
        simp [Solver.next, hInv.hstate, hemp]
      refine ⟨1, { s with m_state := .Terminated }, ?_, rfl, ?_⟩
      · show (s.next).bind (run 0) = _
        rw [hn]
        rfl
      · intro v hv
        exact hInv.hB v hv (by rw [hemp]; simp)
    · obtain ⟨k1, s1, hrun1, hInv1, hlt⟩ := round_step hwf hw hcap hInv hemp
      obtain ⟨k2, s2, hrun2, hterm, hdone⟩ := ih s1 hInv1 (by omega)
      refine ⟨k1 + k2, s2, ?_, hterm, hdone⟩
      rw [run_trans k1 s s1 hrun1 k2]
      exact hrun2

theorem Inv_init {g : Graph} {src : VertexId} (hwf : WellFormed g)
    (hsrc : src ∈ keysOf g) : Inv g src (Solver.make g src) := by
  rw [make_eq]
  refine ⟨rfl, rfl, rfl, hwf.1, fun v hv => hv, ?_, ?_, ?_, ?_, ?_, ?_, ?_, hsrc,
    Or.inr rfl⟩
  · -- htk
    intro v
    show (findEntry (initAssign src [] g) v).isSome ↔ v ∈ keysOf g
    rw [findEntry_initAssign]
    by_cases hk : v ∈ keysOf g
    · simp [hk]
    · simp [hk, findEntry]
  · -- hA
    intro v
    show distOf (initAssign src [] g) v < m_inf →
      CostPath g src v (distOf (initAssign src [] g) v)
    rw [distOf_initAssign]
    by_cases hk : v ∈ keysOf g
    · rw [if_pos hk]
      by_cases hs : v = src
      · subst hs
        rw [if_pos rfl]
        intro _
        exact CostPath.nil v
      · rw [if_neg hs]
        intro h
        exact absurd h (lt_irrefl _)
    · rw [if_neg hk]
      intro h
      exact absurd h (lt_irrefl _)
  · -- hB
    intro v hvk hvn
    exact absurd hvk hvn
  · -- hsrc0
    show distOf (initAssign src [] g) src = 0
    rw [distOf_initAssign, if_pos hsrc, if_pos rfl]
  · -- hD
    intro m hmk hmn
    exact absurd hmk hmn
  · -- hE
    intro m vtxm hmg hmn
    exact absurd (mem_keysOf hmg) hmn
  · -- hF
    intro v
    show 0 ≤ distOf (initAssign src [] g) v ∧ distOf (initAssign src [] g) v ≤ m_inf
    rw [distOf_initAssign]
    split_ifs <;> simp [m_inf]

theorem costPath_g1 : ∀ (u v : VertexId) (c : Int), CostPath g1 u v c →
    v = u ∧ c = 0 := by
  intro u v c h
  cases h with
  | nil => exact ⟨rfl, rfl⟩
  | cons hmem he htail =>
    simp [g1] at hmem
    obtain ⟨rfl, rfl⟩ := hmem
    simp at he

end MachineRound

/-- Claim C1 (amended): for every well-formed graph with non-negative edge
weights containing the source, PROVIDED every true shortest-path distance is
below the sentinel 999 (which the fixed sentinel does not guarantee for
arbitrary graphs — see the counterexample), advancing the freshly constructed
solver reaches `Terminated`, and in the terminated state every vertex
reachable from the source records exactly its true shortest-path weight while
every unreachable vertex records the sentinel. -/
theorem C1_dijkstra (g : Graph) (src : VertexId)
    (hwf : WellFormed g) (hw : NonNegWeights g) (hsrc : src ∈ keysOf g)
    (hcap : ∀ v d, ShortestDist g src v d → d < m_inf) :
    ∃ (n : Nat) (s' : Solver), run n (Solver.make g src) = some s' ∧
      s'.m_state = .Terminated ∧
      ∀ v ∈ keysOf g, DoneV g src s'.m_table v :=
  run_to_terminated hwf hw hcap (Solver.make g src).m_unvisited.length
    (Solver.make g src) (Inv_init hwf hsrc) (le_refl _)

/-- Claim C1, witness: on the single-vertex graph (whose only shortest
distance is 0 < 999) the solver terminates with the correct table. -/
theorem C1_witness :
    WellFormed g1 ∧ NonNegWeights g1 ∧ (1 : VertexId) ∈ keysOf g1 ∧
    (∃ (n : Nat) (s' : Solver), run n (Solver.make g1 1) = some s' ∧
      s'.m_state = .Terminated ∧
      ∀ v ∈ keysOf g1, DoneV g1 1 s'.m_table v) :=
  ⟨by decide, by decide, by decide,
    C1_dijkstra g1 1 (by decide) (by decide) (by decide)
      (fun v d hd => by rw [(costPath_g1 1 v d hd.1).2]; decide)⟩

end Pathfinding
